import Mathlib

/-!
Verification of the open-addressed, double-hashed string hash table of
Hash_Tables_In_C.  The operational code (ht_hash, ht_get_hash, ht_insert,
ht_search, ht_delete, ht_resize, is_prime, next_prime) is embedded from the
final merged versions given in src/STRUCTURE.md; src/hash_table.c contributes
the structure layout and construction.

Modelling conventions:
- C machine integers are modelled as Nat where the source values are
  non-negative by construction; the count field of the table is an Int
  because ht_delete decrements it unconditionally, so it can go negative.
- The unbounded while loops of the C code are modelled with an explicit
  fuel parameter; a result of none means the loop did not finish within
  the given fuel.  All statements about completed operations hypothesise
  a successful (some) result, so no behaviour is invented for divergence.
- A slot is Empty (NULL in C), Deleted (the HT_DELETED_ITEM sentinel) or
  Occupied key value (an ht_item with its two owned strings).
- The pow call of ht_hash is modelled as exact natural-number
  exponentiation, which is the arithmetic the pseudocode of the source
  specifies (double precision is exact on the modelled range).
-/

/-- Slot state of one bucket: NULL, the shared deleted sentinel, or an item. -/
inductive Slot where
  | empty : Slot
  | deleted : Slot
  | occupied (key value : String) : Slot
deriving DecidableEq, Repr

/-- The ht_hash_table structure: base_size, size, count and the item array.
The count field is an Int because ht_delete decrements it even when the key
is absent, which can drive it below zero. -/
structure HashTable where
  base_size : Nat
  size : Nat
  count : Int
  items : List Slot
deriving DecidableEq, Repr

/-- HT_PRIME_1.  Modelled from the spec: the constant is not defined in the
sources; the worked hash examples of src/STRUCTURE.md use 151. -/
def HT_PRIME_1 : Nat := 151

/-- HT_PRIME_2.  Modelled from the spec: the constant is not defined in the
sources; the worked hash examples of src/STRUCTURE.md use 163. -/
def HT_PRIME_2 : Nat := 163

/-- HT_INITIAL_BASE_SIZE: src/STRUCTURE.md fixes the starting base size at 50
(next prime 53, matching the fixed size 53 of src/hash_table.c). -/
def HT_INITIAL_BASE_SIZE : Nat := 50

/-- Accumulating loop of ht_hash: hash += a^(len_s-(i+1)) * s[i]; hash %= m.
The parameter n is the number of characters still to process, so the
exponent for the head character is n-1, exactly len_s-(i+1) in the C code. -/
def hashLoop (a m : Nat) : List Char → Nat → Nat → Nat
  | [], h, _ => h
  | c :: cs, h, n => hashLoop a m cs ((h + a ^ (n - 1) * c.toNat) % m) (n - 1)

/-- ht_hash from src/STRUCTURE.md: generic string hash with base a, m buckets. -/
def ht_hash (s : String) (a m : Nat) : Nat :=
  hashLoop a m s.data 0 s.data.length

/-- ht_get_hash from src/STRUCTURE.md: double-hashed probe index
(hash_a + attempt * (hash_b + 1)) % num_buckets. -/
def ht_get_hash (s : String) (num_buckets attempt : Nat) : Nat :=
  (ht_hash s HT_PRIME_1 num_buckets
    + attempt * (ht_hash s HT_PRIME_2 num_buckets + 1)) % num_buckets

/-- is_prime from src/STRUCTURE.md (prime.c), trial-division loop over odd i
while i <= floor(sqrt(x)), which for natural numbers is the condition
i * i <= x.  Fueled: the loop body runs at most once per unit of fuel;
fuel x is always sufficient since i grows by 2 each round. -/
def isPrimeLoop (x : Nat) : Nat → Nat → Int
  | 0, _ => 1
  | f + 1, i =>
    if i * i ≤ x then (if x % i == 0 then 0 else isPrimeLoop x f (i + 2)) else 1

/-- is_prime from src/STRUCTURE.md: 1 prime, 0 not prime, -1 undefined (x<2). -/
def is_prime (x : Nat) : Int :=
  if x < 2 then -1
  else if x < 4 then 1
  else if x % 2 == 0 then 0
  else isPrimeLoop x x 3

/-- Scanning loop of next_prime.  Fueled; fuel x+3 is sufficient because by
Bertrand's postulate a prime exists between x and 2x (proved below). -/
def nextPrimeLoop : Nat → Nat → Nat
  | 0, x => x
  | f + 1, x => if is_prime x = 1 then x else nextPrimeLoop f (x + 1)

/-- next_prime from src/STRUCTURE.md: the next prime >= x by linear scan. -/
def next_prime (x : Nat) : Nat :=
  nextPrimeLoop (x + 3) x

/-- ht_new_sized: base_size, size = next_prime(base_size), count 0, and a
calloc-ed array of size NULL buckets. -/
def ht_new_sized (base : Nat) : HashTable :=
  { base_size := base
    size := next_prime base
    count := 0
    items := List.replicate (next_prime base) Slot.empty }

/-- ht_new: a fresh table at the initial base size. -/
def ht_new : HashTable :=
  ht_new_sized HT_INITIAL_BASE_SIZE

/-- Probe loop of the final merged ht_insert of src/STRUCTURE.md: walk the
probe sequence past deleted sentinels and non-matching items; on a matching
key replace the item in place and return (no count change, Bool false); on a
NULL bucket store the new item there (count increments, Bool true). -/
def insertLoop (size : Nat) (key value : String) :
    List Slot → Nat → Nat → Option (List Slot × Bool)
  | _, 0, _ => none
  | items, f + 1, i =>
    let index := ht_get_hash key size i
    match items.get? index with
    | none => none
    | some Slot.empty => some (items.set index (Slot.occupied key value), true)
    | some Slot.deleted => insertLoop size key value items f (i + 1)
    | some (Slot.occupied k _) =>
      if k = key then some (items.set index (Slot.occupied key value), false)
      else insertLoop size key value items f (i + 1)

/-- Loop of ht_search: return the value on a key match, stop with a miss at a
NULL bucket, and walk past deleted sentinels and non-matching items.
some (some v) is a hit, some none a miss, none means the fuel ran out. -/
def searchLoop (size : Nat) (key : String) (items : List Slot) :
    Nat → Nat → Option (Option String)
  | 0, _ => none
  | f + 1, i =>
    let index := ht_get_hash key size i
    match items.get? index with
    | none => none
    | some Slot.empty => some none
    | some Slot.deleted => searchLoop size key items f (i + 1)
    | some (Slot.occupied k v) =>
      if k = key then some (some v) else searchLoop size key items f (i + 1)

/-- Loop of ht_delete: walk the probe sequence until a NULL bucket, replacing
every item whose key matches by the deleted sentinel, and keep walking. -/
def deleteLoop (size : Nat) (key : String) :
    List Slot → Nat → Nat → Option (List Slot)
  | _, 0, _ => none
  | items, f + 1, i =>
    let index := ht_get_hash key size i
    match items.get? index with
    | none => none
    | some Slot.empty => some items
    | some Slot.deleted => deleteLoop size key items f (i + 1)
    | some (Slot.occupied k _) =>
      if k = key then deleteLoop size key (items.set index Slot.deleted) f (i + 1)
      else deleteLoop size key items f (i + 1)

/-- Rehashing loop of ht_resize: insert every occupied item of the old array
into the new table, in slot order, using the full public ht_insert (passed in
as insertF, since ht_insert and ht_resize are mutually recursive in C). -/
def rehash (insertF : HashTable → String → String → Option HashTable) :
    List Slot → HashTable → Option HashTable
  | [], acc => some acc
  | Slot.occupied k v :: rest, acc =>
    match insertF acc k v with
    | none => none
    | some acc' => rehash insertF rest acc'
  | Slot.empty :: rest, acc => rehash insertF rest acc
  | Slot.deleted :: rest, acc => rehash insertF rest acc

/-- ht_resize of src/STRUCTURE.md: below HT_INITIAL_BASE_SIZE the request is
ignored; otherwise build ht_new_sized base_size, re-insert all occupied items,
and hand the new table's base_size, count, size and items to the old handle
(the C code swaps the size and items fields then frees the new handle, so the
surviving table is observably exactly the new one). -/
def ht_resize_core (insertF : HashTable → String → String → Option HashTable)
    (ht : HashTable) (base_size : Nat) : Option HashTable :=
  if base_size < HT_INITIAL_BASE_SIZE then some ht
  else
    match rehash insertF ht.items (ht_new_sized base_size) with
    | none => none
    | some new_ht => some new_ht

/-- ht_insert of src/STRUCTURE.md (final merged version): check the load
count*100/size with C integer division, resize up to base_size*2 when it
exceeds 70, then run the probe loop; placement in a NULL bucket increments
count, replacement of a matching key leaves count unchanged. -/
def ht_insert : Nat → HashTable → String → String → Option HashTable
  | 0, _, _, _ => none
  | f + 1, ht, key, value =>
    match
      (if 70 < Int.tdiv (ht.count * 100) (ht.size : Int) then
        ht_resize_core (ht_insert f) ht (ht.base_size * 2)
      else some ht) with
    | none => none
    | some ht1 =>
      match insertLoop ht1.size key value ht1.items (f + 1) 0 with
      | none => none
      | some (items2, true) =>
        some { ht1 with items := items2, count := ht1.count + 1 }
      | some (items2, false) => some { ht1 with items := items2 }

/-- ht_resize with the public ht_insert at the given fuel plugged in. -/
def ht_resize (fuel : Nat) (ht : HashTable) (base_size : Nat) : Option HashTable :=
  ht_resize_core (ht_insert fuel) ht base_size

/-- ht_resize_up: double the base size. -/
def ht_resize_up (fuel : Nat) (ht : HashTable) : Option HashTable :=
  ht_resize fuel ht (ht.base_size * 2)

/-- ht_resize_down: halve the base size (C integer division). -/
def ht_resize_down (fuel : Nat) (ht : HashTable) : Option HashTable :=
  ht_resize fuel ht (ht.base_size / 2)

/-- ht_search of src/STRUCTURE.md (final merged version). -/
def ht_search (fuel : Nat) (ht : HashTable) (key : String) : Option (Option String) :=
  searchLoop ht.size key ht.items fuel 0

/-- ht_delete of src/STRUCTURE.md (final merged version): check the load
count*100/size before the mutation and resize down to base_size/2 when it is
below 10, then run the delete walk, then decrement count unconditionally
(the C code runs ht->count-- after the loop on every path). -/
def ht_delete (fuel : Nat) (ht : HashTable) (key : String) : Option HashTable :=
  match
    (if Int.tdiv (ht.count * 100) (ht.size : Int) < 10 then
      ht_resize_down fuel ht
    else some ht) with
  | none => none
  | some ht1 =>
    match deleteLoop ht1.size key ht1.items fuel 0 with
    | none => none
    | some items2 => some { ht1 with items := items2, count := ht1.count - 1 }

/-- Tables reachable through the public API: ht_new followed by any sequence
of completed inserts and deletes (searches do not mutate). -/
inductive Reach : HashTable → Prop where
  | new : Reach ht_new
  | insert {t t' : HashTable} {f : Nat} {k v : String} :
      Reach t → ht_insert f t k v = some t' → Reach t'
  | delete {t t' : HashTable} {f : Nat} {k : String} :
      Reach t → ht_delete f t k = some t' → Reach t'

/-! ### Concrete scenario tables used by witnesses and counterexamples -/

/-- One-character key with the given ASCII code, for concrete scenarios. -/
def charKey (n : Nat) : String := String.mk [Char.ofNat n]

/-- Fresh table with the key "i" inserted.  ASCII "i" is 105 = 2*53 - 1, so
both hashes of "i" mod 53 are 52: the item sits in bucket 52, the bucket that
every probe attempt of the key "4" (ASCII 52) lands on. -/
def tableWithI : HashTable := (ht_insert 2 ht_new "i" "a").getD ht_new

/-- Fresh table with the round-trip example pair inserted. -/
def c1Table : HashTable := (ht_insert 2 ht_new "cat" "felix").getD ht_new

/-- Thirty-seven distinct one-character inserts (ASCII 54..90) into a fresh
table: count 37, size still 53, the state just below the resize threshold. -/
def c5t37 : Option HashTable :=
  (List.range 37).foldl
    (fun o n => o.bind fun h => ht_insert 60 h (charKey (54 + n)) "f")
    (some ht_new)

/-- Reachable table with a stale count: one absent-key delete drives count to
-1 (the C4 bug), then 38 distinct one-character inserts (ASCII 54..91) leave
count 37 although 38 buckets are occupied. -/
def c2t0 : Option HashTable :=
  (List.range 38).foldl
    (fun o n => o.bind fun h => ht_insert 60 h (charKey (54 + n)) "f")
    (ht_delete 3 ht_new "z")

/-- The first insert of the key "5" for the C2 scenario: count becomes 38. -/
def c2t1 : Option HashTable := c2t0.bind fun t => ht_insert 60 t "5" "v1"

/-- The second insert of the key "5": the load 38*100/53 = 71 triggers a
resize, which recounts the occupied entries, so count becomes 39. -/
def c2t2 : Option HashTable := c2t1.bind fun t => ht_insert 300 t "5" "v2"

/-- Thirty-nine distinct one-character inserts (ASCII 53..91) into a fresh
table; the 39th sees load 38*100/53 = 71 > 70 and resizes up to size 101. -/
def c5grow : Option HashTable :=
  (List.range 39).foldl
    (fun o n => o.bind fun h => ht_insert 400 h (charKey (53 + n)) "f")
    (some ht_new)

/-- Twenty-eight deletes (ASCII 53..80) bring the table of c5grow down to
count 11 at size 101 without triggering a resize. -/
def c5low : Option HashTable :=
  (List.range 28).foldl
    (fun o n => o.bind fun h => ht_delete 120 h (charKey (53 + n)))
    c5grow

/-- One more delete ("Q", ASCII 81): the pre-delete load is 11*100/101 = 10,
so the code does not resize down, although the post-delete load 10*100/101 =
9 is below 10 and base_size/2 = 50 is not below the minimum. -/
def c5post : Option HashTable := c5low.bind fun t => ht_delete 120 t "Q"

/-- C3 witness scenario: the keys "," (ASCII 44) and "a" (ASCII 97) collide
at bucket 44 of a fresh table.  Insert both, then delete ",". -/
def c3t1 : HashTable := (ht_insert 6 ht_new "," "x").getD ht_new

/-- Second step of the C3 witness scenario. -/
def c3t2 : HashTable := (ht_insert 6 c3t1 "a" "y").getD ht_new

/-- Third step of the C3 witness scenario. -/
def c3t3 : HashTable := (ht_delete 6 c3t2 ",").getD ht_new

/-- Size part of the table invariant: the base size never drops below the
minimum 50 and the capacity is a prime of at least 53 = next_prime(50). -/
def SizeInv (t : HashTable) : Prop :=
  HT_INITIAL_BASE_SIZE ≤ t.base_size ∧ Nat.Prime t.size ∧ 53 ≤ t.size

instance (t : HashTable) : Decidable (SizeInv t) := by
  unfold SizeInv
  infer_instance

/-- Slot content that a probe walk for the given key may walk past: a
tombstone or an item with a different key. -/
def Skips (key : String) (s : Slot) : Prop :=
  s = Slot.deleted ∨ ∃ k0 v0, k0 ≠ key ∧ s = Slot.occupied k0 v0

/-- The probe walk for key meets the item (key, v) at attempt j, every
earlier attempt seeing a bucket it walks past. -/
def FindsAt (items : List Slot) (size : Nat) (key v : String) (j : Nat) :
    Prop :=
  (∀ x, x < j → ∃ s, items.get? (ht_get_hash key size x) = some s
      ∧ Skips key s)
    ∧ items.get? (ht_get_hash key size j) = some (Slot.occupied key v)

/-- Occupied buckets hold pairwise distinct keys. -/
def UniqueKeys (items : List Slot) : Prop :=
  ∀ i j ki vi kj vj, items.get? i = some (Slot.occupied ki vi) →
    items.get? j = some (Slot.occupied kj vj) → ki = kj → i = j

/-- Some bucket holds the item (k, v). -/
def HasBinding (items : List Slot) (k v : String) : Prop :=
  ∃ i, items.get? i = some (Slot.occupied k v)

/-- Structural uniqueness of occupied keys along the slot list. -/
def UniqueOccKeys : List Slot → Prop
  | [] => True
  | Slot.occupied k _ :: rest =>
    (∀ v', Slot.occupied k v' ∉ rest) ∧ UniqueOccKeys rest
  | Slot.empty :: rest => UniqueOccKeys rest
  | Slot.deleted :: rest => UniqueOccKeys rest

/-- Well-formedness of a table: the array length matches size, size is
positive, occupied keys are unique, and every stored item is reachable by
its own probe walk. -/
def WF (t : HashTable) : Prop :=
  t.items.length = t.size ∧ 0 < t.size ∧ UniqueKeys t.items
    ∧ ∀ k v, HasBinding t.items k v → ∃ j, FindsAt t.items t.size k v j

/-- Number of occupied buckets of a slot array (what a resize re-inserts). -/
def occCount : List Slot → Nat
  | [] => 0
  | Slot.occupied _ _ :: rest => occCount rest + 1
  | Slot.empty :: rest => occCount rest
  | Slot.deleted :: rest => occCount rest

/-- The table of c5post as a value (count 10, size 101, base 100). -/
def c5postT : HashTable := c5post.getD ht_new

/-- One further delete ("R", ASCII 82, present): the pre-delete load
10*100/101 = 9 is below 10 and the halved base 50 is admissible, so this
delete really rebuilds the table at base 50, size 53. -/
def c5down : Option HashTable := ht_delete 400 c5postT "R"

/-! ### Hash function: range and probe-sequence facts -/

/-- The accumulator of hashLoop stays below m once it is below m. -/
theorem hashLoop_lt (a m : Nat) (hm : 0 < m) :
    ∀ (cs : List Char) (h n : Nat), h < m → hashLoop a m cs h n < m := by
  intro cs
  induction cs with
  | nil => intro h n hh; simpa [hashLoop] using hh
  | cons c cs ih =>
    intro h n hh
    simpa [hashLoop] using ih _ _ (Nat.mod_lt _ hm)

/-- ht_hash lands in the bucket range whenever there is at least one bucket. -/
theorem ht_hash_lt (s : String) (a m : Nat) (hm : 0 < m) : ht_hash s a m < m :=
  hashLoop_lt a m hm _ 0 _ hm

/-- Sanity check against the worked example of src/STRUCTURE.md:
hash("cat", 151, 53) = 5. -/
theorem ht_hash_cat : ht_hash "cat" 151 53 = 5 := by decide

/-- ht_get_hash is also a bucket index when there is at least one bucket. -/
theorem ht_get_hash_lt (s : String) (m i : Nat) (hm : 0 < m) :
    ht_get_hash s m i < m :=
  Nat.mod_lt _ hm

/-- C7: for every ASCII string s, prime a and bucket count m > 0, the hash
ht_hash s a m is a pure function of its arguments (it is a Lean function by
construction) whose result lies in the interval [0, m). -/
theorem c7_hash_contract (s : String) (a m : Nat) (_ha : Nat.Prime a)
    (hm : 0 < m) : ht_hash s a m < m :=
  ht_hash_lt s a m hm

/-- Witness for c7_hash_contract at the worked example of the source. -/
theorem c7_hash_contract_witness :
    Nat.Prime 151 ∧ 0 < 53 ∧ ht_hash "cat" 151 53 < 53 :=
  ⟨by decide, by decide, c7_hash_contract "cat" 151 53 (by decide) (by decide)⟩

/-- The double-hash step ht_hash s HT_PRIME_2 m + 1 is never zero as an
integer, but it can be divisible by m (namely when the second hash is m-1),
in which case every probe lands on the same bucket. -/
theorem probe_distinct (s : String) (m : Nat) (hm : Nat.Prime m)
    (hstep : (ht_hash s HT_PRIME_2 m + 1) % m ≠ 0) :
    ∀ i j, i < m → j < m → i ≠ j → ht_get_hash s m i ≠ ht_get_hash s m j := by
  intro i j hi hj hij hEq
  apply hij
  haveI : Fact (Nat.Prime m) := ⟨hm⟩
  unfold ht_get_hash at hEq
  have hcast := congrArg (Nat.cast : Nat → ZMod m) hEq
  rw [ZMod.natCast_mod, ZMod.natCast_mod] at hcast
  push_cast at hcast
  have hS : ((ht_hash s HT_PRIME_2 m + 1 : Nat) : ZMod m) ≠ 0 := by
    rw [Ne, ZMod.natCast_zmod_eq_zero_iff_dvd]
    intro hdvd
    obtain ⟨c, hc⟩ := hdvd
    exact hstep (by rw [hc]; exact Nat.mul_mod_right m c)
  have hmul : (i : ZMod m) * ((ht_hash s HT_PRIME_2 m : Nat) + 1)
      = (j : ZMod m) * ((ht_hash s HT_PRIME_2 m : Nat) + 1) := by
    exact add_left_cancel hcast
  have hij2 : (i : ZMod m) = (j : ZMod m) := by
    have : ((ht_hash s HT_PRIME_2 m + 1 : Nat) : ZMod m)
        = ((ht_hash s HT_PRIME_2 m : Nat) + 1 : ZMod m) := by push_cast; ring
    exact mul_right_cancel₀ (by rw [this] at hS; exact hS) hmul
  have := congrArg ZMod.val hij2
  rwa [ZMod.val_cast_of_lt hi, ZMod.val_cast_of_lt hj] at this

/-- C6 (amended): the probe indices for attempts 0..m-1 are pairwise distinct
for every key s and prime bucket count m such that the probe step
ht_hash s HT_PRIME_2 m + 1 is not divisible by m.  The unamended claim is
false: the +1 makes the step a nonzero integer but not nonzero mod m. -/
theorem c6_probe_distinct_amended (s : String) (m : Nat) (hm : Nat.Prime m)
    (hstep : (ht_hash s HT_PRIME_2 m + 1) % m ≠ 0) (i j : Nat)
    (hi : i < m) (hj : j < m) (hij : i ≠ j) :
    ht_get_hash s m i ≠ ht_get_hash s m j :=
  probe_distinct s m hm hstep i j hi hj hij

/-- Witness for c6_probe_distinct_amended: key "a", the prime 53, attempts
0 and 1 give distinct probe indices. -/
theorem c6_probe_distinct_amended_witness :
    Nat.Prime 53 ∧ (ht_hash "a" HT_PRIME_2 53 + 1) % 53 ≠ 0
      ∧ ht_get_hash "a" 53 0 ≠ ht_get_hash "a" 53 1 :=
  ⟨by decide, by decide,
    c6_probe_distinct_amended "a" 53 (by decide) (by decide) 0 1
      (by decide) (by decide) (by decide)⟩

/-- C6 counterexample: for the key "4" (ASCII 52) and the prime bucket count
53, the second hash is 52, so the probe step is 53 = 0 mod 53 and the probe
indices of attempts 0 and 1 (and indeed of all attempts) coincide at 52,
refuting pairwise distinctness as the claim states it. -/
theorem c6_probe_distinct_counterexample :
    Nat.Prime 53 ∧ (0 : Nat) ≠ 1
      ∧ ht_get_hash "4" 53 0 = ht_get_hash "4" 53 1 := by
  decide

/-- C4 evaluation at the failing input: the key "a" is absent from a fresh
table (search misses), yet ht_delete completes and decrements count from 0
to -1, because the C code runs count-- unconditionally after the probe loop.
The claim (and the API contract in src/STRUCTURE.md: delete does nothing if
the key does not exist) requires count to be unchanged. -/
theorem c4_delete_absent_decrements_count :
    ht_new.count = 0 ∧ ht_search 1 ht_new "a" = some none
      ∧ (ht_delete 3 ht_new "a").map (fun t => t.count) = some (-1) := by
  decide

/-! ### Insert probe walk: trace and round trip -/

/-- Characterisation of a successful insert probe walk: some attempt j places
the new item (into a NULL bucket, incrementing, or over a matching key,
replacing), and every earlier attempt saw a deleted sentinel or an item with
a different key. -/
theorem insertLoop_spec (size : Nat) (key value : String) :
    ∀ (f i : Nat) (items items2 : List Slot) (inc : Bool),
      insertLoop size key value items f i = some (items2, inc) →
      ∃ j, i ≤ j ∧
        items2 = items.set (ht_get_hash key size j) (Slot.occupied key value) ∧
        ((items.get? (ht_get_hash key size j) = some Slot.empty ∧ inc = true) ∨
          (∃ v0, items.get? (ht_get_hash key size j) = some (Slot.occupied key v0)
            ∧ inc = false)) ∧
        (∀ x, i ≤ x → x < j →
          items.get? (ht_get_hash key size x) = some Slot.deleted ∨
          ∃ k0 v0, k0 ≠ key
            ∧ items.get? (ht_get_hash key size x) = some (Slot.occupied k0 v0)) := by
  intro f
  induction f with
  | zero => intro i items items2 inc h; simp [insertLoop] at h
  | succ f ih =>
    intro i items items2 inc h
    simp only [insertLoop] at h
    split at h
    · exact absurd h (by simp)
    · rename_i hx
      rw [Option.some_inj, Prod.mk.injEq] at h
      obtain ⟨h1, h2⟩ := h
      exact ⟨i, le_refl i, h1.symm, Or.inl ⟨hx, h2.symm⟩,
        fun x hx1 hx2 => absurd (lt_of_le_of_lt hx1 hx2) (lt_irrefl i)⟩
    · rename_i hx
      obtain ⟨j, hij, hset, hplace, hpre⟩ := ih (i + 1) items items2 inc h
      refine ⟨j, by omega, hset, hplace, fun x hx1 hx2 => ?_⟩
      rcases Nat.eq_or_lt_of_le hx1 with hxe | hxl
      · exact Or.inl (hxe ▸ hx)
      · exact hpre x hxl hx2
    · rename_i k v0 hx
      split at h
      · rename_i hk
        rw [Option.some_inj, Prod.mk.injEq] at h
        obtain ⟨h1, h2⟩ := h
        exact ⟨i, le_refl i, h1.symm, Or.inr ⟨v0, hk ▸ hx, h2.symm⟩,
          fun x hx1 hx2 => absurd (lt_of_le_of_lt hx1 hx2) (lt_irrefl i)⟩
      · rename_i hk
        obtain ⟨j, hij, hset, hplace, hpre⟩ := ih (i + 1) items items2 inc h
        refine ⟨j, by omega, hset, hplace, fun x hx1 hx2 => ?_⟩
        rcases Nat.eq_or_lt_of_le hx1 with hxe | hxl
        · exact Or.inr ⟨k, v0, hk, hxe ▸ hx⟩
        · exact hpre x hxl hx2

/-- After a successful insert probe walk for a key, a search walk for the same
key over the updated array, started at the same attempt with the same fuel,
returns the value just written. -/
theorem insertLoop_then_search (size : Nat) (key value : String) :
    ∀ (f i : Nat) (items items2 : List Slot) (inc : Bool),
      insertLoop size key value items f i = some (items2, inc) →
      searchLoop size key items2 f i = some (some value) := by
  intro f
  induction f with
  | zero => intro i items items2 inc h; simp [insertLoop] at h
  | succ f ih =>
    intro i items items2 inc h
    simp only [insertLoop] at h
    split at h
    · exact absurd h (by simp)
    · rename_i hx
      rw [Option.some_inj, Prod.mk.injEq] at h
      obtain ⟨h1, _⟩ := h
      have hlt : ht_get_hash key size i < items.length := (List.get?_eq_some.mp hx).1
      have hsl : items2.get? (ht_get_hash key size i)
          = some (Slot.occupied key value) := by
        rw [← h1, List.get?_set_eq_of_lt _ hlt]
      simp only [searchLoop]
      rw [hsl]
      simp
    · rename_i hx
      have hspec := insertLoop_spec size key value f (i + 1) items items2 inc h
      obtain ⟨j, hij, hset, hplace, hpre⟩ := hspec
      have hjlt : ht_get_hash key size j < items.length := by
        rcases hplace with ⟨he, _⟩ | ⟨v0, he, _⟩
        · exact (List.get?_eq_some.mp he).1
        · exact (List.get?_eq_some.mp he).1
      simp only [searchLoop]
      by_cases hidx : ht_get_hash key size j = ht_get_hash key size i
      · have hsl : items2.get? (ht_get_hash key size i)
            = some (Slot.occupied key value) := by
          rw [hset, ← hidx, List.get?_set_eq_of_lt _ hjlt]
        rw [hsl]
        simp
      · have hsl : items2.get? (ht_get_hash key size i) = some Slot.deleted := by
          rw [hset, List.get?_set_ne _ _ hidx, hx]
        rw [hsl]
        exact ih (i + 1) items items2 inc h
    · rename_i k v0 hx
      by_cases hk : k = key
      · rw [if_pos hk, Option.some_inj, Prod.mk.injEq] at h
        obtain ⟨h1, _⟩ := h
        have hlt : ht_get_hash key size i < items.length := (List.get?_eq_some.mp hx).1
        have hsl : items2.get? (ht_get_hash key size i)
            = some (Slot.occupied key value) := by
          rw [← h1, List.get?_set_eq_of_lt _ hlt]
        simp only [searchLoop]
        rw [hsl]
        simp
      · rw [if_neg hk] at h
        have hspec := insertLoop_spec size key value f (i + 1) items items2 inc h
        obtain ⟨j, hij, hset, hplace, hpre⟩ := hspec
        have hjlt : ht_get_hash key size j < items.length := by
          rcases hplace with ⟨he, _⟩ | ⟨v0', he, _⟩
          · exact (List.get?_eq_some.mp he).1
          · exact (List.get?_eq_some.mp he).1
        simp only [searchLoop]
        by_cases hidx : ht_get_hash key size j = ht_get_hash key size i
        · have hsl : items2.get? (ht_get_hash key size i)
              = some (Slot.occupied key value) := by
            rw [hset, ← hidx, List.get?_set_eq_of_lt _ hjlt]
          rw [hsl]
          simp
        · have hsl : items2.get? (ht_get_hash key size i)
              = some (Slot.occupied k v0) := by
            rw [hset, List.get?_set_ne _ _ hidx, hx]
          rw [hsl]
          simp only [if_neg hk]
          exact ih (i + 1) items items2 inc h

/-- A completed ht_insert is followed by a successful ht_search for the same
key at the same fuel, whatever table the optional resize produced: the search
walk retraces the insert walk and meets the new item first. -/
theorem ht_insert_then_search (f : Nat) (t t' : HashTable) (key value : String)
    (h : ht_insert f t key value = some t') :
    ht_search f t' key = some (some value) := by
  match f with
  | 0 => simp [ht_insert] at h
  | f + 1 =>
    simp only [ht_insert] at h
    split at h
    · exact absurd h (by simp)
    · rename_i ht1 hR
      split at h
      · exact absurd h (by simp)
      · rename_i items2 hL
        rw [Option.some_inj] at h
        have hs := insertLoop_then_search ht1.size key value (f + 1) 0
          ht1.items items2 true hL
        rw [← h]
        exact hs
      · rename_i items2 hL
        rw [Option.some_inj] at h
        have hs := insertLoop_then_search ht1.size key value (f + 1) 0
          ht1.items items2 false hL
        rw [← h]
        exact hs

/-- Every probe attempt of the key "4" at 53 buckets lands on bucket 52: both
hashes of "4" are 52, so the step 52+1 = 53 vanishes mod 53. -/
theorem ht_get_hash_four (i : Nat) : ht_get_hash "4" 53 i = 52 := by
  have h1 : ht_hash "4" HT_PRIME_1 53 = 52 := by decide
  have h2 : ht_hash "4" HT_PRIME_2 53 = 52 := by decide
  show (ht_hash "4" HT_PRIME_1 53 + i * (ht_hash "4" HT_PRIME_2 53 + 1)) % 53 = 52
  rw [h1, h2]
  show (52 + i * 53) % 53 = 52
  rw [Nat.add_mul_mod_self_right]

/-- The probe walk of an insert of "4" into tableWithI never finishes: every
attempt inspects bucket 52, which holds the non-matching key "i". -/
theorem insertLoop_four_stuck (v : String) :
    ∀ f i, insertLoop 53 "4" v tableWithI.items f i = none := by
  intro f
  induction f with
  | zero => intro i; rfl
  | succ f ih =>
    intro i
    have hslot : tableWithI.items.get? 52 = some (Slot.occupied "i" "a") := by decide
    simp only [insertLoop, ht_get_hash_four, hslot]
    rw [if_neg (by decide : ¬ "i" = "4")]
    exact ih (i + 1)

/-- ht_insert of the key "4" into tableWithI diverges at every fuel: the load
check passes without a resize and the probe loop never terminates. -/
theorem ht_insert_four_never (f : Nat) (v : String) :
    ht_insert f tableWithI "4" v = none := by
  match f with
  | 0 => rfl
  | f + 1 =>
    have hsz : tableWithI.size = 53 := by decide
    simp only [ht_insert]
    rw [if_neg (by decide : ¬ 70 < Int.tdiv (tableWithI.count * 100) (tableWithI.size : Int))]
    simp only [hsz, insertLoop_four_stuck]

/-- C1 (amended): round trip.  Whenever an insert of (key, value) into any
table completes, a subsequent search for key returns Some value.  The
unamended claim is false because the insert need not complete: its probe
walk can cycle forever on a degenerate probe step. -/
theorem c1_round_trip_amended (t t' : HashTable) (key value : String) (f : Nat)
    (h : ht_insert f t key value = some t') :
    ∃ g, ht_search g t' key = some (some value) :=
  ⟨f, ht_insert_then_search f t t' key value h⟩

/-- Witness for c1_round_trip_amended on the concrete scenario of the spec. -/
theorem c1_round_trip_amended_witness :
    ht_insert 2 ht_new "cat" "felix" = some c1Table
      ∧ ∃ g, ht_search g c1Table "cat" = some (some "felix") :=
  ⟨by decide, c1_round_trip_amended ht_new c1Table "cat" "felix" 2 (by decide)⟩

/-- C1 counterexample: inserting "i" into a fresh table succeeds, but then
insert(t, "4", "b") never returns (1000 probe attempts, nineteen times the
table size, all inspect bucket 52), so no search can follow it; the theorem
ht_insert_four_never shows the divergence holds at every fuel. -/
theorem c1_round_trip_counterexample :
    ht_insert 2 ht_new "i" "a" = some tableWithI
      ∧ ht_insert 1000 tableWithI "4" "b" = none :=
  ⟨by decide, ht_insert_four_never 1000 "b"⟩

/-! ### Update semantics: inserting the same key twice -/

/-- After a successful insert probe walk for a key, a second insert walk for
the same key over the updated array terminates within the same fuel and takes
the replace branch: it meets the first walk's item before any NULL bucket. -/
theorem insertLoop_again (size : Nat) (key v1 v2 : String) :
    ∀ (f i : Nat) (items items1 : List Slot) (inc : Bool),
      insertLoop size key v1 items f i = some (items1, inc) →
      ∃ items2, insertLoop size key v2 items1 f i = some (items2, false) := by
  intro f
  induction f with
  | zero => intro i items items1 inc h; simp [insertLoop] at h
  | succ f ih =>
    intro i items items1 inc h
    simp only [insertLoop] at h
    split at h
    · exact absurd h (by simp)
    · rename_i hx
      rw [Option.some_inj, Prod.mk.injEq] at h
      obtain ⟨h1, _⟩ := h
      have hlt : ht_get_hash key size i < items.length := (List.get?_eq_some.mp hx).1
      have hsl : items1.get? (ht_get_hash key size i)
          = some (Slot.occupied key v1) := by
        rw [← h1, List.get?_set_eq_of_lt _ hlt]
      refine ⟨items1.set (ht_get_hash key size i) (Slot.occupied key v2), ?_⟩
      simp only [insertLoop]
      rw [hsl]
      simp
    · rename_i hx
      obtain ⟨j, hij, hset, hplace, hpre⟩ :=
        insertLoop_spec size key v1 f (i + 1) items items1 inc h
      have hjlt : ht_get_hash key size j < items.length := by
        rcases hplace with ⟨he, _⟩ | ⟨v0, he, _⟩
        · exact (List.get?_eq_some.mp he).1
        · exact (List.get?_eq_some.mp he).1
      by_cases hidx : ht_get_hash key size j = ht_get_hash key size i
      · have hsl : items1.get? (ht_get_hash key size i)
            = some (Slot.occupied key v1) := by
          rw [hset, ← hidx, List.get?_set_eq_of_lt _ hjlt]
        refine ⟨items1.set (ht_get_hash key size i) (Slot.occupied key v2), ?_⟩
        simp only [insertLoop]
        rw [hsl]
        simp
      · have hsl : items1.get? (ht_get_hash key size i) = some Slot.deleted := by
          rw [hset, List.get?_set_ne _ _ hidx, hx]
        obtain ⟨items2, h2⟩ := ih (i + 1) items items1 inc h
        refine ⟨items2, ?_⟩
        simp only [insertLoop]
        rw [hsl]
        exact h2
    · rename_i k v0 hx
      by_cases hk : k = key
      · rw [if_pos hk, Option.some_inj, Prod.mk.injEq] at h
        obtain ⟨h1, _⟩ := h
        have hlt : ht_get_hash key size i < items.length := (List.get?_eq_some.mp hx).1
        have hsl : items1.get? (ht_get_hash key size i)
            = some (Slot.occupied key v1) := by
          rw [← h1, List.get?_set_eq_of_lt _ hlt]
        refine ⟨items1.set (ht_get_hash key size i) (Slot.occupied key v2), ?_⟩
        simp only [insertLoop]
        rw [hsl]
        simp
      · rw [if_neg hk] at h
        obtain ⟨j, hij, hset, hplace, hpre⟩ :=
          insertLoop_spec size key v1 f (i + 1) items items1 inc h
        have hjlt : ht_get_hash key size j < items.length := by
          rcases hplace with ⟨he, _⟩ | ⟨v0', he, _⟩
          · exact (List.get?_eq_some.mp he).1
          · exact (List.get?_eq_some.mp he).1
        by_cases hidx : ht_get_hash key size j = ht_get_hash key size i
        · have hsl : items1.get? (ht_get_hash key size i)
              = some (Slot.occupied key v1) := by
            rw [hset, ← hidx, List.get?_set_eq_of_lt _ hjlt]
          refine ⟨items1.set (ht_get_hash key size i) (Slot.occupied key v2), ?_⟩
          simp only [insertLoop]
          rw [hsl]
          simp
        · have hsl : items1.get? (ht_get_hash key size i)
              = some (Slot.occupied k v0) := by
            rw [hset, List.get?_set_ne _ _ hidx, hx]
          obtain ⟨items2, h2⟩ := ih (i + 1) items items1 inc h
          refine ⟨items2, ?_⟩
          simp only [insertLoop]
          rw [hsl]
          simp only [if_neg hk]
          exact h2

/-- C2 (amended): update semantics.  If an insert of (k, v1) into any table
completes and the resulting table t1 is not above the load threshold (so the
second insert does not resize), then the insert of (k, v2) also completes
within the same fuel, takes the replace branch leaving count unchanged, and a
subsequent search returns Some v2.  The unamended claim fails when the second
insert resizes: the resize recounts the occupied entries, which can differ
from the count field (the count can be stale through the delete bug). -/
theorem c2_update_semantics_amended (t t1 : HashTable) (k v1 v2 : String)
    (f : Nat) (h1 : ht_insert f t k v1 = some t1)
    (hload : ¬ 70 < Int.tdiv (t1.count * 100) (t1.size : Int)) :
    ∃ t2, ht_insert f t1 k v2 = some t2 ∧ t2.count = t1.count
      ∧ ∃ g, ht_search g t2 k = some (some v2) := by
  match f with
  | 0 => simp [ht_insert] at h1
  | f + 1 =>
    simp only [ht_insert] at h1
    split at h1
    · exact absurd h1 (by simp)
    · rename_i ht1 hR
      split at h1
      · exact absurd h1 (by simp)
      · rename_i items2 hL
        rw [Option.some_inj] at h1
        obtain ⟨items3, h3⟩ :=
          insertLoop_again ht1.size k v1 v2 (f + 1) 0 ht1.items items2 true hL
        have hsize : t1.size = ht1.size := by rw [← h1]
        have hitems : t1.items = items2 := by rw [← h1]
        have hs := insertLoop_then_search ht1.size k v2 (f + 1) 0 items2 items3 false h3
        refine ⟨{ t1 with items := items3 }, ?_, rfl, ⟨f + 1, ?_⟩⟩
        · simp only [ht_insert, if_neg hload]
          rw [hsize, hitems, h3]
        · have hrw : ht_search (f + 1) { t1 with items := items3 } k
              = searchLoop t1.size k items3 (f + 1) 0 := rfl
          rw [hrw, hsize]
          exact hs
      · rename_i items2 hL
        rw [Option.some_inj] at h1
        obtain ⟨items3, h3⟩ :=
          insertLoop_again ht1.size k v1 v2 (f + 1) 0 ht1.items items2 false hL
        have hsize : t1.size = ht1.size := by rw [← h1]
        have hitems : t1.items = items2 := by rw [← h1]
        have hs := insertLoop_then_search ht1.size k v2 (f + 1) 0 items2 items3 false h3
        refine ⟨{ t1 with items := items3 }, ?_, rfl, ⟨f + 1, ?_⟩⟩
        · simp only [ht_insert, if_neg hload]
          rw [hsize, hitems, h3]
        · have hrw : ht_search (f + 1) { t1 with items := items3 } k
              = searchLoop t1.size k items3 (f + 1) 0 := rfl
          rw [hrw, hsize]
          exact hs

/-- Witness for c2_update_semantics_amended: insert cat twice. -/
theorem c2_update_semantics_amended_witness :
    ht_insert 2 ht_new "cat" "felix" = some c1Table
      ∧ ¬ 70 < Int.tdiv (c1Table.count * 100) (c1Table.size : Int)
      ∧ ∃ t2, ht_insert 2 c1Table "cat" "tom" = some t2 ∧ t2.count = c1Table.count
          ∧ ∃ g, ht_search g t2 "cat" = some (some "tom") :=
  ⟨by decide, by decide,
    c2_update_semantics_amended ht_new c1Table "cat" "felix" "tom" 2
      (by decide) (by decide)⟩

/-- C2 counterexample: a reachable table (one absent-key delete, then 38
distinct inserts) has count 37 with 38 occupied buckets.  Inserting the key
"5" gives count 38 (c2t1); immediately re-inserting "5" passes the load check
38*100/53 = 71 > 70, resizes, and the resize recounts the 39 occupied
entries, so count after the second insert is 39, not 38 as the claim
requires.  The search part of the claim does hold here: "5" maps to "v2". -/
theorem c2_update_count_counterexample :
    c2t1.map (fun t => t.count) = some 38
      ∧ c2t2.map (fun t => t.count) = some 39
      ∧ (38 : Int) ≠ 39
      ∧ c2t2.bind (fun t => ht_search 3 t "5") = some (some "v2") := by
  refine ⟨by decide, by decide, by decide, by decide⟩

/-! ### Delete walk: pointwise effect and search preservation -/

/-- A completed delete walk changes buckets only by replacing items with the
walked key by the deleted sentinel: every bucket is either untouched or was
an item with that key and is now a tombstone. -/
theorem deleteLoop_pointwise (size : Nat) (key : String) :
    ∀ (f i : Nat) (items items' : List Slot),
      deleteLoop size key items f i = some items' →
      ∀ idx, items'.get? idx = items.get? idx ∨
        (∃ v0, items.get? idx = some (Slot.occupied key v0)
          ∧ items'.get? idx = some Slot.deleted) := by
  intro f
  induction f with
  | zero => intro i items items' h; simp [deleteLoop] at h
  | succ f ih =>
    intro i items items' h
    simp only [deleteLoop] at h
    split at h
    · exact absurd h (by simp)
    · rw [Option.some_inj] at h
      exact fun idx => Or.inl (h ▸ rfl)
    · exact fun idx => ih (i + 1) items items' h idx
    · rename_i k v0 hx
      split at h
      · rename_i hk
        rw [hk] at hx
        intro idx
        have hlt : ht_get_hash key size i < items.length := (List.get?_eq_some.mp hx).1
        have hmid := ih (i + 1) (items.set (ht_get_hash key size i) Slot.deleted) items' h idx
        by_cases hidx : idx = ht_get_hash key size i
        · subst hidx
          rcases hmid with hsame | ⟨v1, hv1, hdel⟩
          · rw [List.get?_set_eq_of_lt _ hlt] at hsame
            exact Or.inr ⟨v0, hx, hsame⟩
          · rw [List.get?_set_eq_of_lt _ hlt] at hv1
            exact absurd hv1 (by simp)
        · rcases hmid with hsame | ⟨v1, hv1, hdel⟩
          · rw [List.get?_set_ne _ _ (fun hc => hidx hc.symm)] at hsame
            exact Or.inl hsame
          · rw [List.get?_set_ne _ _ (fun hc => hidx hc.symm)] at hv1
            exact Or.inr ⟨v1, hv1, hdel⟩
      · exact fun idx => ih (i + 1) items items' h idx

/-- A successful search stays successful with the same value after buckets
holding a different key are turned into tombstones: the walk skips the new
tombstones exactly where it skipped the non-matching items. -/
theorem searchLoop_tombstone_invariant (size : Nat) (k1 k2 : String)
    (hne : k1 ≠ k2) :
    ∀ (f i : Nat) (items items' : List Slot) (v : String),
      (∀ idx, items'.get? idx = items.get? idx ∨
        (∃ v0, items.get? idx = some (Slot.occupied k1 v0)
          ∧ items'.get? idx = some Slot.deleted)) →
      searchLoop size k2 items f i = some (some v) →
      searchLoop size k2 items' f i = some (some v) := by
  intro f
  induction f with
  | zero => intro i items items' v hpt h; simp [searchLoop] at h
  | succ f ih =>
    intro i items items' v hpt h
    simp only [searchLoop] at h ⊢
    split at h
    · exact absurd h (by simp)
    · exact absurd h (by simp)
    · rename_i hx
      rcases hpt (ht_get_hash k2 size i) with hsame | ⟨v0, hv0, hdel⟩
      · rw [hsame, hx]
        exact ih (i + 1) items items' v hpt h
      · rw [hv0] at hx
        exact absurd hx (by simp)
    · rename_i k v0 hx
      split at h
      · rename_i hk
        rw [Option.some_inj, Option.some_inj] at h
        subst h
        rcases hpt (ht_get_hash k2 size i) with hsame | ⟨v1, hv1, hdel⟩
        · rw [hsame, hx]
          simp [hk]
        · rw [hv1] at hx
          simp only [Option.some_inj, Slot.occupied.injEq] at hx
          exact absurd (hx.1.trans hk) hne
      · rename_i hk
        rcases hpt (ht_get_hash k2 size i) with hsame | ⟨v1, hv1, hdel⟩
        · rw [hsame, hx]
          simp only [if_neg hk]
          exact ih (i + 1) items items' v hpt h
        · rw [hdel]
          exact ih (i + 1) items items' v hpt h

/-- Decomposition of a completed ht_insert whose load check does not fire:
the table is unchanged except that the items array is the probe-walk result
and count grows by one exactly when the walk filled a NULL bucket. -/
theorem ht_insert_no_resize_spec (f : Nat) (t t' : HashTable)
    (key value : String)
    (hload : ¬ 70 < Int.tdiv (t.count * 100) (t.size : Int))
    (h : ht_insert f t key value = some t') :
    ∃ items2 inc, insertLoop t.size key value t.items f 0 = some (items2, inc)
      ∧ t'.base_size = t.base_size ∧ t'.size = t.size ∧ t'.items = items2
      ∧ (inc = true → t'.count = t.count + 1)
      ∧ (inc = false → t'.count = t.count) := by
  match f with
  | 0 => simp [ht_insert] at h
  | f + 1 =>
    simp only [ht_insert, if_neg hload] at h
    split at h
    · exact absurd h (by simp)
    · rename_i items2 hL
      rw [Option.some_inj] at h
      exact ⟨items2, true, hL, by rw [← h], by rw [← h], by rw [← h],
        fun _ => by rw [← h], fun hc => by simp at hc⟩
    · rename_i items2 hL
      rw [Option.some_inj] at h
      exact ⟨items2, false, hL, by rw [← h], by rw [← h], by rw [← h],
        fun hc => by simp at hc, fun _ => by rw [← h]⟩

/-- Decomposition of a completed ht_delete on a table whose halved base size
is below the minimum: the resize-down request (whether or not the load check
fires) is ignored, the items array is the delete-walk result, and count drops
by one unconditionally. -/
theorem ht_delete_min_spec (f : Nat) (t t' : HashTable) (key : String)
    (hbase : t.base_size / 2 < HT_INITIAL_BASE_SIZE)
    (h : ht_delete f t key = some t') :
    ∃ items2, deleteLoop t.size key t.items f 0 = some items2
      ∧ t'.base_size = t.base_size ∧ t'.size = t.size ∧ t'.items = items2
      ∧ t'.count = t.count - 1 := by
  have hres : (if Int.tdiv (t.count * 100) (t.size : Int) < 10 then
      ht_resize_down f t else some t) = some t := by
    split
    · simp only [ht_resize_down, ht_resize, ht_resize_core, if_pos hbase]
    · rfl
  rw [ht_delete, hres] at h
  have h' : (match deleteLoop t.size key t.items f 0 with
      | none => none
      | some items2 =>
        some { t with items := items2, count := t.count - 1 }) = some t' := h
  split at h'
  · exact absurd h' (by simp)
  · rename_i items2 hD
    rw [Option.some_inj] at h'
    exact ⟨items2, hD, by rw [← h'], by rw [← h'], by rw [← h'], by rw [← h']⟩

/-- C3 (amended): tombstone transparency.  For distinct keys k1, k2 whose
probe sequences collide on a fresh table, if the insert of k2 and the delete
of k1 complete (the insert of k1 into the fresh table always completes when
it does, stated as a hypothesis), the delete leaves a tombstone that the
search for k2 walks past, so the search still returns k2's value.  The
unamended claim is false because the insert of k2 or the delete of k1 can
fail to terminate on a degenerate probe step. -/
theorem c3_tombstone_transparency_amended (k1 k2 v1 v2 : String)
    (hne : k1 ≠ k2)
    (_hcol : ht_get_hash k1 ht_new.size 0 = ht_get_hash k2 ht_new.size 0)
    (f1 f2 f3 : Nat) (t1 t2 t3 : HashTable)
    (h1 : ht_insert f1 ht_new k1 v1 = some t1)
    (h2 : ht_insert f2 t1 k2 v2 = some t2)
    (h3 : ht_delete f3 t2 k1 = some t3) :
    ∃ g, ht_search g t3 k2 = some (some v2) := by
  have hload0 : ¬ 70 < Int.tdiv (ht_new.count * 100) (ht_new.size : Int) := by
    decide
  obtain ⟨itemsA, incA, hLA, hbase1, hsize1, hitems1, hci1, hci0⟩ :=
    ht_insert_no_resize_spec f1 ht_new t1 k1 v1 hload0 h1
  have hc : t1.count = 0 ∨ t1.count = 1 := by
    cases incA with
    | false => exact Or.inl ((hci0 rfl).trans (by decide))
    | true => exact Or.inr ((hci1 rfl).trans (by decide))
  have hload1 : ¬ 70 < Int.tdiv (t1.count * 100) (t1.size : Int) := by
    rcases hc with h | h <;> rw [h, hsize1] <;> decide
  obtain ⟨itemsB, incB, hLB, hbase2, hsize2, hitems2, hci1', hci0'⟩ :=
    ht_insert_no_resize_spec f2 t1 t2 k2 v2 hload1 h2
  have hbase : t2.base_size / 2 < HT_INITIAL_BASE_SIZE := by
    rw [hbase2, hbase1]
    decide
  obtain ⟨itemsC, hDC, hbase3, hsize3, hitems3, hcount3⟩ :=
    ht_delete_min_spec f3 t2 t3 k1 hbase h3
  have hs2 : searchLoop t2.size k2 t2.items f2 0 = some (some v2) :=
    ht_insert_then_search f2 t1 t2 k2 v2 h2
  have hpt := deleteLoop_pointwise t2.size k1 f3 0 t2.items itemsC hDC
  have hs3 := searchLoop_tombstone_invariant t2.size k1 k2 hne f2 0
    t2.items itemsC v2 hpt hs2
  refine ⟨f2, ?_⟩
  show searchLoop t3.size k2 t3.items f2 0 = some (some v2)
  rw [hsize3, hitems3]
  exact hs3

/-- Witness for c3_tombstone_transparency_amended: the keys "," and "a"
both hash to bucket 44 at size 53; insert both, delete ",", search "a". -/
theorem c3_tombstone_transparency_amended_witness :
    ("," : String) ≠ "a"
      ∧ ht_get_hash "," ht_new.size 0 = ht_get_hash "a" ht_new.size 0
      ∧ ht_insert 6 ht_new "," "x" = some c3t1
      ∧ ht_insert 6 c3t1 "a" "y" = some c3t2
      ∧ ht_delete 6 c3t2 "," = some c3t3
      ∧ ∃ g, ht_search g c3t3 "a" = some (some "y") :=
  ⟨by decide, by decide, by decide, by decide, by decide,
    c3_tombstone_transparency_amended "," "a" "x" "y" (by decide) (by decide)
      6 6 6 c3t1 c3t2 c3t3 (by decide) (by decide) (by decide)⟩

/-- C3 counterexample: the distinct keys "i" and "4" collide in probe order
(both start at bucket 52 of a fresh table), but after inserting "i" the
insert of "4" never returns (shown here at fuel 1000, nineteen times the
table size; ht_insert_four_never proves it for every fuel), so the claimed
sequence insert-insert-delete-search cannot even reach its search. -/
theorem c3_tombstone_transparency_counterexample :
    ("i" : String) ≠ "4"
      ∧ ht_get_hash "i" ht_new.size 0 = ht_get_hash "4" ht_new.size 0
      ∧ ht_insert 2 ht_new "i" "a" = some tableWithI
      ∧ ht_insert 1000 tableWithI "4" "b" = none :=
  ⟨by decide, by decide, by decide, ht_insert_four_never 1000 "b"⟩

/-! ### Load-factor policy: when the resizes fire and what they change -/

/-- Field extraction from the probe phase of ht_insert: the probe only
rewrites the items array and possibly count, never size or base_size. -/
theorem probe_match_fields (ht1 t' : HashTable) (k v : String) (pf : Nat)
    (h : (match insertLoop ht1.size k v ht1.items pf 0 with
      | none => none
      | some (items2, true) =>
        some { ht1 with items := items2, count := ht1.count + 1 }
      | some (items2, false) => some { ht1 with items := items2 }) = some t') :
    t'.base_size = ht1.base_size ∧ t'.size = ht1.size := by
  split at h
  · exact absurd h (by simp)
  · rw [Option.some_inj] at h
    exact ⟨by rw [← h], by rw [← h]⟩
  · rw [Option.some_inj] at h
    exact ⟨by rw [← h], by rw [← h]⟩

/-- The rehash loop never shrinks the base size of its accumulator, as long
as the insert it folds never does. -/
theorem rehash_base_mono (insF : HashTable → String → String → Option HashTable)
    (hmono : ∀ t k v t', insF t k v = some t' → t.base_size ≤ t'.base_size) :
    ∀ (items : List Slot) (acc acc' : HashTable),
      rehash insF items acc = some acc' → acc.base_size ≤ acc'.base_size := by
  intro items
  induction items with
  | nil =>
    intro acc acc' h
    rw [rehash, Option.some_inj] at h
    rw [h]
  | cons s rest ih =>
    intro acc acc' h
    cases s with
    | empty => exact ih acc acc' h
    | deleted => exact ih acc acc' h
    | occupied k v =>
      rw [rehash] at h
      rcases hstep : insF acc k v with _ | acc1
      · rw [hstep] at h
        exact absurd h (by simp)
      · rw [hstep] at h
        exact le_trans (hmono acc k v acc1 hstep) (ih acc1 acc' h)

/-- ht_insert never shrinks base_size: the only resize it can trigger is the
doubling resize (possibly nested inside the rehash). -/
theorem ht_insert_base_mono :
    ∀ (f : Nat) (t : HashTable) (k v : String) (t' : HashTable),
      ht_insert f t k v = some t' → t.base_size ≤ t'.base_size := by
  intro f
  induction f with
  | zero => intro t k v t' h; simp [ht_insert] at h
  | succ f ih =>
    intro t k v t' h
    simp only [ht_insert] at h
    split at h
    · exact absurd h (by simp)
    · rename_i ht1 hR
      have hfields := probe_match_fields ht1 t' k v (f + 1) h
      have hb : t.base_size ≤ ht1.base_size := by
        split at hR
        · rw [ht_resize_core] at hR
          split at hR
          · rw [Option.some_inj] at hR
            subst hR
            exact Nat.le_refl _
          · split at hR
            · exact absurd hR (by simp)
            · rename_i new_ht hre
              rw [Option.some_inj] at hR
              have hlb := rehash_base_mono (ht_insert f) ih t.items
                (ht_new_sized (t.base_size * 2)) new_ht hre
              rw [← hR]
              calc t.base_size ≤ t.base_size * 2 := by omega
                _ = (ht_new_sized (t.base_size * 2)).base_size := rfl
                _ ≤ new_ht.base_size := hlb
        · rw [Option.some_inj] at hR
          subst hR
          exact Nat.le_refl _
      rw [hfields.1]
      exact hb

/-- When the load check of ht_insert fires and the doubled base size is not
below the minimum, the completed insert leaves the table with at least the
doubled base size (exactly the doubled base size unless the rehash itself
crosses the threshold again). -/
theorem ht_insert_resize_taken_base (f : Nat) (t t' : HashTable)
    (k v : String)
    (hload : 70 < Int.tdiv (t.count * 100) (t.size : Int))
    (hmin : ¬ t.base_size * 2 < HT_INITIAL_BASE_SIZE)
    (h : ht_insert f t k v = some t') :
    t.base_size * 2 ≤ t'.base_size := by
  match f with
  | 0 => simp [ht_insert] at h
  | f + 1 =>
    simp only [ht_insert, if_pos hload] at h
    split at h
    · exact absurd h (by simp)
    · rename_i ht1 hR
      have hfields := probe_match_fields ht1 t' k v (f + 1) h
      rw [ht_resize_core, if_neg hmin] at hR
      split at hR
      · exact absurd hR (by simp)
      · rename_i new_ht hre
        rw [Option.some_inj] at hR
        have hlb := rehash_base_mono (ht_insert f) (ht_insert_base_mono f) t.items
          (ht_new_sized (t.base_size * 2)) new_ht hre
        rw [hfields.1, ← hR]
        exact hlb

/-- When the load check of ht_insert fires but the doubled base size is below
the minimum, the resize request is silently ignored: size and base_size are
unchanged. -/
theorem ht_insert_resize_ignored_spec (f : Nat) (t t' : HashTable)
    (k v : String)
    (hload : 70 < Int.tdiv (t.count * 100) (t.size : Int))
    (hmin : t.base_size * 2 < HT_INITIAL_BASE_SIZE)
    (h : ht_insert f t k v = some t') :
    t'.size = t.size ∧ t'.base_size = t.base_size := by
  match f with
  | 0 => simp [ht_insert] at h
  | f + 1 =>
    simp only [ht_insert, if_pos hload, ht_resize_core, if_pos hmin] at h
    have h' : (match insertLoop t.size k v t.items (f + 1) 0 with
      | none => none
      | some (items2, true) =>
        some { t with items := items2, count := t.count + 1 }
      | some (items2, false) => some { t with items := items2 }) = some t' := h
    have hfields := probe_match_fields t t' k v (f + 1) h'
    exact ⟨hfields.2, hfields.1⟩

/-- When the load check of ht_delete does not fire, the completed delete
leaves size and base_size unchanged (only items and count change). -/
theorem ht_delete_no_resize_spec (f : Nat) (t t' : HashTable) (key : String)
    (hload : ¬ Int.tdiv (t.count * 100) (t.size : Int) < 10)
    (h : ht_delete f t key = some t') :
    ∃ items2, deleteLoop t.size key t.items f 0 = some items2
      ∧ t'.base_size = t.base_size ∧ t'.size = t.size ∧ t'.items = items2
      ∧ t'.count = t.count - 1 := by
  rw [ht_delete, if_neg hload] at h
  have h' : (match deleteLoop t.size key t.items f 0 with
      | none => none
      | some items2 =>
        some { t with items := items2, count := t.count - 1 }) = some t' := h
  split at h'
  · exact absurd h' (by simp)
  · rename_i items2 hD
    rw [Option.some_inj] at h'
    exact ⟨items2, hD, by rw [← h'], by rw [← h'], by rw [← h'], by rw [← h']⟩

/-- C truncated division is monotone in a nonnegative numerator. -/
theorem tdiv_le_tdiv_nonneg (a b c : Int) (ha : 0 ≤ a) (hab : a ≤ b)
    (hc : 0 < c) : Int.tdiv a c ≤ Int.tdiv b c := by
  rw [Int.tdiv_eq_ediv ha (le_of_lt hc),
    Int.tdiv_eq_ediv (le_trans ha hab) (le_of_lt hc)]
  exact Int.ediv_le_ediv hc hab

/-- If the destination table of a rehash starts with a nonnegative count and
even re-inserting every occupied slot of the source array cannot push its
load over the insert threshold, then no re-insert of the fold resizes: the
rehash keeps the destination's base_size and size, and its count stays
between 0 and start count + occupied slots. -/
theorem rehash_fixed_capacity (f : Nat) :
    ∀ (slots : List Slot) (acc acc' : HashTable),
      0 ≤ acc.count →
      ¬ 70 < Int.tdiv ((acc.count + (occCount slots : Int)) * 100)
        (acc.size : Int) →
      rehash (ht_insert f) slots acc = some acc' →
      acc'.base_size = acc.base_size ∧ acc'.size = acc.size
        ∧ 0 ≤ acc'.count
        ∧ acc'.count ≤ acc.count + (occCount slots : Int) := by
  intro slots
  induction slots with
  | nil =>
    intro acc acc' hc0 _ h
    rw [rehash, Option.some_inj] at h
    subst h
    refine ⟨rfl, rfl, hc0, ?_⟩
    simp [occCount]
  | cons s rest ih =>
    cases s with
    | empty =>
      intro acc acc' hc0 htot h
      exact ih acc acc' hc0 htot h
    | deleted =>
      intro acc acc' hc0 htot h
      exact ih acc acc' hc0 htot h
    | occupied k v =>
      intro acc acc' hc0 htot h
      rw [rehash] at h
      have hoc : (occCount (Slot.occupied k v :: rest) : Int)
          = (occCount rest : Int) + 1 := by
        have h0 : occCount (Slot.occupied k v :: rest) = occCount rest + 1 :=
          rfl
        rw [h0]
        push_cast
        ring
      have hkey : ∀ c : Int, 0 ≤ c →
          c ≤ acc.count + (occCount (Slot.occupied k v :: rest) : Int) →
          ¬ 70 < Int.tdiv (c * 100) (acc.size : Int) := by
        intro c hcpos hcle hcon
        rcases Nat.eq_zero_or_pos acc.size with hz | hp
        · rw [hz] at hcon
          simp [Int.tdiv_zero] at hcon
        · have h100 : c * 100
              ≤ (acc.count + (occCount (Slot.occupied k v :: rest) : Int))
                * 100 :=
            mul_le_mul_of_nonneg_right hcle (by norm_num)
          have hmono := tdiv_le_tdiv_nonneg (c * 100)
            ((acc.count + (occCount (Slot.occupied k v :: rest) : Int)) * 100)
            (acc.size : Int) (mul_nonneg hcpos (by norm_num)) h100
            (by exact_mod_cast hp)
          exact htot (lt_of_lt_of_le hcon hmono)
      rcases hstep : ht_insert f acc k v with _ | acc1
      · rw [hstep] at h
        simp at h
      · rw [hstep] at h
        have hnores : ¬ 70 < Int.tdiv (acc.count * 100) (acc.size : Int) :=
          hkey acc.count hc0
            (le_add_of_nonneg_right (Int.natCast_nonneg _))
        obtain ⟨items2, inc, hL, hb1, hs1, hi1, hct, hcf⟩ :=
          ht_insert_no_resize_spec f acc acc1 k v hnores hstep
        have hcb : 0 ≤ acc1.count ∧ acc1.count ≤ acc.count + 1 := by
          cases inc with
          | false =>
            rw [hcf rfl]
            exact ⟨hc0, by omega⟩
          | true =>
            rw [hct rfl]
            exact ⟨by omega, by omega⟩
        have htot1 : ¬ 70 < Int.tdiv
            ((acc1.count + (occCount rest : Int)) * 100) (acc1.size : Int) := by
          rw [hs1]
          refine hkey (acc1.count + (occCount rest : Int)) ?_ ?_
          · have hnn := Int.natCast_nonneg (occCount rest)
            have := hcb.1
            omega
          · rw [hoc]
            have := hcb.2
            omega
        obtain ⟨hb2, hs2, hc2, hle2⟩ := ih acc1 acc' hcb.1 htot1 h
        refine ⟨hb2.trans hb1, hs2.trans hs1, hc2, ?_⟩
        rw [hoc]
        have := hcb.2
        omega

/-- When the load check of ht_delete fires, the halved base size is
admissible, and re-inserting every occupied slot of the old array cannot
push the rebuilt table over the insert threshold, a completed delete really
resizes down: the resulting table has exactly the halved base size and the
matching prime capacity. -/
theorem ht_delete_resize_taken_spec (f : Nat) (t t' : HashTable)
    (key : String)
    (hload : Int.tdiv (t.count * 100) (t.size : Int) < 10)
    (hmin : ¬ t.base_size / 2 < HT_INITIAL_BASE_SIZE)
    (hocc : ¬ 70 < Int.tdiv ((occCount t.items : Int) * 100)
      ((next_prime (t.base_size / 2) : Nat) : Int))
    (h : ht_delete f t key = some t') :
    t'.base_size = t.base_size / 2 ∧ t'.size = next_prime (t.base_size / 2) := by
  rw [ht_delete, if_pos hload, ht_resize_down, ht_resize, ht_resize_core,
    if_neg hmin] at h
  rcases hre : rehash (ht_insert f) t.items (ht_new_sized (t.base_size / 2))
    with _ | new_ht
  · rw [hre] at h
    simp at h
  · rw [hre] at h
    have hocc' : ¬ 70 < Int.tdiv
        (((ht_new_sized (t.base_size / 2)).count + (occCount t.items : Int))
          * 100) ((ht_new_sized (t.base_size / 2)).size : Int) := by
      simpa [ht_new_sized] using hocc
    obtain ⟨hb, hs, _, _⟩ := rehash_fixed_capacity f t.items
      (ht_new_sized (t.base_size / 2)) new_ht (le_refl 0) hocc' hre
    have h' : (match deleteLoop new_ht.size key new_ht.items f 0 with
        | none => none
        | some items2 =>
          some { new_ht with items := items2, count := new_ht.count - 1 })
        = some t' := h
    split at h'
    · exact absurd h' (by simp)
    · rename_i items2 hD
      rw [Option.some_inj] at h'
      exact ⟨by rw [← h']; exact hb, by rw [← h']; exact hs⟩

/-- C5 (amended): load-factor resize policy.  Both load checks run before
their mutation and use the pre-mutation count with C integer division:
ht_insert resizes up exactly when count*100/size > 70 (not
(count+1)*100/size), ht_delete resizes down exactly when count*100/size < 10
computed before (not after) the deletion, and a resize whose requested base
size is below the minimum is silently ignored.  Stated through observables of
completed operations: (1) if the insert check does not fire, capacity is
unchanged; (2) if it fires but the doubled base is below the minimum, it is
ignored; (3) if it fires and the doubled base is admissible, the base size at
least doubles; (4) if the delete check does not fire, capacity is unchanged;
(5) if it fires but the halved base is below the minimum, it is ignored;
(6) if it fires, the halved base is admissible, and the occupied slots to be
re-inserted keep the rebuilt table under the insert threshold, the delete
really resizes down to exactly the halved base size and its prime capacity
(the occupancy proviso is needed: without it the rehash itself can cross 70%
and immediately grow the rebuilt table again, as part (3) allows). -/
theorem c5_load_policy_amended :
    (∀ f t k v t', ht_insert f t k v = some t' →
        ¬ 70 < Int.tdiv (t.count * 100) (t.size : Int) →
        t'.size = t.size ∧ t'.base_size = t.base_size)
    ∧ (∀ f t k v t', ht_insert f t k v = some t' →
        70 < Int.tdiv (t.count * 100) (t.size : Int) →
        t.base_size * 2 < HT_INITIAL_BASE_SIZE →
        t'.size = t.size ∧ t'.base_size = t.base_size)
    ∧ (∀ f t k v t', ht_insert f t k v = some t' →
        70 < Int.tdiv (t.count * 100) (t.size : Int) →
        ¬ t.base_size * 2 < HT_INITIAL_BASE_SIZE →
        t.base_size * 2 ≤ t'.base_size)
    ∧ (∀ f t k t', ht_delete f t k = some t' →
        ¬ Int.tdiv (t.count * 100) (t.size : Int) < 10 →
        t'.size = t.size ∧ t'.base_size = t.base_size)
    ∧ (∀ f t k t', ht_delete f t k = some t' →
        t.base_size / 2 < HT_INITIAL_BASE_SIZE →
        t'.size = t.size ∧ t'.base_size = t.base_size)
    ∧ (∀ f t k t', ht_delete f t k = some t' →
        Int.tdiv (t.count * 100) (t.size : Int) < 10 →
        ¬ t.base_size / 2 < HT_INITIAL_BASE_SIZE →
        ¬ 70 < Int.tdiv ((occCount t.items : Int) * 100)
          ((next_prime (t.base_size / 2) : Nat) : Int) →
        t'.base_size = t.base_size / 2
          ∧ t'.size = next_prime (t.base_size / 2)) := by
  refine ⟨?_, ?_, ?_, ?_, ?_, ?_⟩
  · intro f t k v t' h hload
    obtain ⟨items2, inc, _, hbase, hsize, _, _, _⟩ :=
      ht_insert_no_resize_spec f t t' k v hload h
    exact ⟨hsize, hbase⟩
  · intro f t k v t' h hload hmin
    exact ht_insert_resize_ignored_spec f t t' k v hload hmin h
  · intro f t k v t' h hload hmin
    exact ht_insert_resize_taken_base f t t' k v hload hmin h
  · intro f t k t' h hload
    obtain ⟨items2, _, hbase, hsize, _, _⟩ :=
      ht_delete_no_resize_spec f t t' k hload h
    exact ⟨hsize, hbase⟩
  · intro f t k t' h hbase
    obtain ⟨items2, _, hbase', hsize, _, _⟩ :=
      ht_delete_min_spec f t t' k hbase h
    exact ⟨hsize, hbase'⟩
  · intro f t k t' h hload hmin hocc
    exact ht_delete_resize_taken_spec f t t' k hload hmin hocc h

/-- Witness for c5_load_policy_amended: its first, fifth and sixth parts
applied to a fresh-table insert, a fresh-table delete, and the delete of "R"
from the reachable table of c5post (count 10, size 101, base 100), which
really resizes down to base 50, size 53. -/
theorem c5_load_policy_amended_witness :
    (ht_insert 2 ht_new "cat" "felix" = some c1Table
      ∧ ¬ 70 < Int.tdiv (ht_new.count * 100) (ht_new.size : Int)
      ∧ c1Table.size = ht_new.size ∧ c1Table.base_size = ht_new.base_size)
    ∧ (ht_delete 3 ht_new "a" = some ((ht_delete 3 ht_new "a").getD ht_new)
      ∧ ht_new.base_size / 2 < HT_INITIAL_BASE_SIZE
      ∧ ((ht_delete 3 ht_new "a").getD ht_new).size = ht_new.size)
    ∧ (ht_delete 400 c5postT "R" = some (c5down.getD ht_new)
      ∧ Int.tdiv (c5postT.count * 100) (c5postT.size : Int) < 10
      ∧ ¬ c5postT.base_size / 2 < HT_INITIAL_BASE_SIZE
      ∧ ¬ 70 < Int.tdiv ((occCount c5postT.items : Int) * 100)
          ((next_prime (c5postT.base_size / 2) : Nat) : Int)
      ∧ (c5down.getD ht_new).base_size = c5postT.base_size / 2
      ∧ (c5down.getD ht_new).size = next_prime (c5postT.base_size / 2)) :=
  ⟨⟨by decide, by decide,
      c5_load_policy_amended.1 2 ht_new "cat" "felix" c1Table
        (by decide) (by decide)⟩,
    ⟨by decide, by decide,
      (c5_load_policy_amended.2.2.2.2.1 3 ht_new "a"
        ((ht_delete 3 ht_new "a").getD ht_new) (by decide) (by decide)).1⟩,
    by
      refine ⟨by decide, by decide, by decide, by decide, ?_⟩
      exact c5_load_policy_amended.2.2.2.2.2 400 c5postT "R"
        (c5down.getD ht_new) (by decide) (by decide) (by decide) (by decide)⟩

/-- C5 counterexample, both halves of the claim.  Insert half: a reachable
table with count 37, size 53 satisfies the claimed trigger
(37+1)*100/53 = 71 > 70, yet the insert leaves size 53 because the code
tests 37*100/53 = 69 with the pre-insert count.  Delete half: deleting from
a reachable table with count 11, size 101, base 100 leaves size 101,
although the claimed post-mutation check 10*100/101 = 9 < 10 fires and the
halved base 50 is not below the minimum, because the code tests the
pre-delete count 11*100/101 = 10 before the mutation. -/
theorem c5_load_policy_counterexample :
    (c5t37.map fun t => (t.count, t.size, t.base_size)) = some (37, 53, 50)
      ∧ ((c5t37.bind fun t => ht_insert 60 t "X" "v").map fun t => t.size)
          = some 53
      ∧ 70 < Int.tdiv ((37 + 1) * 100) 53
      ∧ (c5low.map fun t => (t.count, t.size, t.base_size))
          = some (11, 101, 100)
      ∧ (c5post.map fun t => (t.count, t.size, t.base_size))
          = some (10, 101, 100)
      ∧ Int.tdiv (10 * 100) 101 < 10
      ∧ ¬ 100 / 2 < HT_INITIAL_BASE_SIZE := by
  exact ⟨by decide, by decide, by decide, by decide, by decide, by decide,
    by decide⟩

/-! ### Correctness of the prime helper -/

/-- Meaning of the trial-division loop: with fuel reaching past the square
root, it returns 1 exactly when no odd candidate from i up covers a divisor
whose square is at most x. -/
theorem isPrimeLoop_eq_one_iff (x : Nat) :
    ∀ (f i : Nat), i % 2 = 1 → x < (i + 2 * f) * (i + 2 * f) →
      (isPrimeLoop x f i = 1 ↔
        ∀ d, i ≤ d → d % 2 = 1 → d * d ≤ x → ¬ d ∣ x) := by
  intro f
  induction f with
  | zero =>
    intro i hodd hfuel
    simp only [Nat.mul_zero, Nat.add_zero] at hfuel
    simp only [isPrimeLoop, true_iff]
    intro d hd hdodd hdsq
    exact absurd hdsq (by
      have : i * i ≤ d * d := Nat.mul_le_mul hd hd
      omega)
  | succ f ih =>
    intro i hodd hfuel
    simp only [isPrimeLoop]
    by_cases hsq : i * i ≤ x
    · rw [if_pos hsq]
      by_cases hdvd : x % i = 0
      · rw [if_pos (by simpa using hdvd)]
        constructor
        · intro h0; exact absurd h0 (by decide)
        · intro hall
          exact (hall i (Nat.le_refl i) hodd hsq
            (Nat.dvd_of_mod_eq_zero hdvd)).elim
      · rw [if_neg (by simpa using hdvd)]
        have hfuel' : x < (i + 2 + 2 * f) * (i + 2 + 2 * f) := by
          have : i + 2 + 2 * f = i + 2 * (f + 1) := by omega
          rw [this]; exact hfuel
        rw [ih (i + 2) (by omega) hfuel']
        constructor
        · intro hall d hd hdodd hdsq hddvd
          rcases Nat.lt_or_ge d (i + 2) with hlt | hge
          · have : d = i ∨ d = i + 1 := by omega
            rcases this with rfl | rfl
            · obtain ⟨c, rfl⟩ := hddvd
              exact hdvd (Nat.mul_mod_right d c)
            · omega
          · exact hall d hge hdodd hdsq hddvd
        · intro hall d hd hdodd hdsq hddvd
          exact hall d (by omega) hdodd hdsq hddvd
    · rw [if_neg hsq]
      simp only [true_iff]
      intro d hd hdodd hdsq
      have : i * i ≤ d * d := Nat.mul_le_mul hd hd
      omega

/-- is_prime returns 1 exactly on primes, for inputs at least 2. -/
theorem is_prime_eq_one_iff (x : Nat) (hx : 2 ≤ x) :
    (is_prime x = 1 ↔ Nat.Prime x) := by
  by_cases h4 : x < 4
  · have : x = 2 ∨ x = 3 := by omega
    rcases this with rfl | rfl <;> simp [is_prime] <;> decide
  · have hx4 : 4 ≤ x := by omega
    by_cases heven : x % 2 = 0
    · have : is_prime x = 0 := by
        simp [is_prime, heven]
        omega
      rw [this]
      constructor
      · intro hc; exact absurd hc (by decide)
      · intro hp
        obtain ⟨c, rfl⟩ := Nat.dvd_of_mod_eq_zero heven
        rcases (Nat.Prime.eq_one_or_self_of_dvd hp 2 ⟨c, rfl⟩) with h2 | h2
        · exact absurd h2 (by decide)
        · omega
    · have hodd : x % 2 = 1 := Nat.mod_two_eq_zero_or_one x |>.resolve_left heven
      have hloop : is_prime x = isPrimeLoop x x 3 := by
        simp [is_prime]
        omega
      rw [hloop]
      have hfuel : x < (3 + 2 * x) * (3 + 2 * x) := by
        calc x < 3 + 2 * x := by omega
          _ ≤ (3 + 2 * x) * (3 + 2 * x) :=
            Nat.le_mul_of_pos_left _ (by omega)
      rw [isPrimeLoop_eq_one_iff x x 3 (by decide) hfuel]
      constructor
      · intro hall
        by_contra hnp
        have hmf := Nat.minFac_dvd x
        have hmfp : Nat.Prime x.minFac := Nat.minFac_prime (by omega)
        have hmf2 : x.minFac ≠ 2 := by
          intro h2
          rw [h2] at hmf
          obtain ⟨c, rfl⟩ := hmf
          omega
        have hmfodd : x.minFac % 2 = 1 :=
          (Nat.Prime.eq_two_or_odd hmfp).resolve_left hmf2
        have hmf3 : 3 ≤ x.minFac := by
          have := hmfp.two_le
          omega
        have hmfsq : x.minFac * x.minFac ≤ x := by
          have := Nat.minFac_sq_le_self (by omega : 0 < x) hnp
          rwa [Nat.pow_two] at this
        exact hall x.minFac hmf3 hmfodd hmfsq hmf
      · intro hp d hd3 hdodd hdsq hddvd
        rcases Nat.Prime.eq_one_or_self_of_dvd hp d hddvd with h1 | hdx
        · omega
        · subst hdx
          have hdd : d * d ≤ d * 1 := by simpa using hdsq
          have : d ≤ 1 := Nat.le_of_mul_le_mul_left hdd (by omega)
          omega

/-- The scanning loop of next_prime returns a prime at least its start, as
long as some prime is in fuel range. -/
theorem nextPrimeLoop_spec :
    ∀ (f x : Nat), (∃ n, n < f ∧ is_prime (x + n) = 1) →
      Nat.Prime (nextPrimeLoop f x) ∧ x ≤ nextPrimeLoop f x := by
  intro f
  induction f with
  | zero =>
    intro x ⟨n, hn, _⟩
    omega
  | succ f ih =>
    intro x ⟨n, hn, hp⟩
    by_cases hx : is_prime x = 1
    · have h2 : 2 ≤ x := by
        by_contra hlt
        have : is_prime x = -1 := by
          simp [is_prime]
          omega
        rw [this] at hx
        exact absurd hx (by decide)
      rw [nextPrimeLoop, if_pos hx]
      exact ⟨(is_prime_eq_one_iff x h2).mp hx, Nat.le_refl x⟩
    · rw [nextPrimeLoop, if_neg hx]
      have hn0 : n ≠ 0 := by
        intro h0
        rw [h0, Nat.add_zero] at hp
        exact hx hp
      obtain ⟨m, rfl⟩ := Nat.exists_eq_succ_of_ne_zero hn0
      have := ih (x + 1)
        ⟨m, by omega, by rw [show x + 1 + m = x + (m + 1) by omega]; exact hp⟩
      exact ⟨this.1, by omega⟩

/-- next_prime returns a prime at least its argument: by Bertrand's
postulate there is a prime strictly between x and 2x, and the fuel x+3
covers that range. -/
theorem next_prime_spec (x : Nat) :
    Nat.Prime (next_prime x) ∧ x ≤ next_prime x := by
  rcases Nat.eq_zero_or_pos x with rfl | hpos
  · constructor <;> decide
  · obtain ⟨p, hp, hlt, hle⟩ := Nat.exists_prime_lt_and_le_two_mul x (by omega)
    refine nextPrimeLoop_spec (x + 3) x ⟨p - x, by omega, ?_⟩
    have hpx : x + (p - x) = p := by omega
    rw [hpx]
    exact (is_prime_eq_one_iff p hp.two_le).mpr hp

/-- A prime of at least 50 is at least 53 (50, 51, 52 are composite). -/
theorem prime_ge_fifty (p : Nat) (hp : Nat.Prime p) (h : 50 ≤ p) : 53 ≤ p := by
  by_contra hlt
  have : p = 50 ∨ p = 51 ∨ p = 52 := by omega
  rcases this with rfl | rfl | rfl <;> exact absurd hp (by decide)

/-! ### The capacity invariant along the public API -/

/-- A freshly sized table at an admissible base satisfies the invariant. -/
theorem ht_new_sized_size_inv (b : Nat) (hb : HT_INITIAL_BASE_SIZE ≤ b) :
    SizeInv (ht_new_sized b) := by
  obtain ⟨hp, hge⟩ := next_prime_spec b
  refine ⟨hb, hp, ?_⟩
  show (53 : Nat) ≤ next_prime b
  have h50 : (50 : Nat) ≤ b := hb
  exact prime_ge_fifty _ hp (by omega)

/-- Field extraction from the delete phase of ht_delete: it only rewrites
items and count, never size or base_size. -/
theorem delete_match_fields (ht1 t' : HashTable) (key : String) (f : Nat)
    (h : (match deleteLoop ht1.size key ht1.items f 0 with
      | none => none
      | some items2 =>
        some { ht1 with items := items2, count := ht1.count - 1 }) = some t') :
    t'.base_size = ht1.base_size ∧ t'.size = ht1.size := by
  split at h
  · exact absurd h (by simp)
  · rw [Option.some_inj] at h
    exact ⟨by rw [← h], by rw [← h]⟩

/-- The rehash loop preserves the size invariant of its accumulator if the
insert it folds does. -/
theorem rehash_size_inv (insF : HashTable → String → String → Option HashTable)
    (hpres : ∀ t k v t', SizeInv t → insF t k v = some t' → SizeInv t') :
    ∀ (items : List Slot) (acc acc' : HashTable),
      SizeInv acc → rehash insF items acc = some acc' → SizeInv acc' := by
  intro items
  induction items with
  | nil =>
    intro acc acc' hinv h
    rw [rehash, Option.some_inj] at h
    rwa [← h]
  | cons s rest ih =>
    intro acc acc' hinv h
    cases s with
    | empty => exact ih acc acc' hinv h
    | deleted => exact ih acc acc' hinv h
    | occupied k v =>
      rw [rehash] at h
      rcases hstep : insF acc k v with _ | acc1
      · rw [hstep] at h
        exact absurd h (by simp)
      · rw [hstep] at h
        exact ih acc1 acc' (hpres acc k v acc1 hinv hstep) h

/-- ht_resize_core preserves the size invariant: an ignored request keeps the
table, an honoured one rebuilds it at base at least the minimum. -/
theorem ht_resize_core_size_inv
    (insF : HashTable → String → String → Option HashTable)
    (hpres : ∀ t k v t', SizeInv t → insF t k v = some t' → SizeInv t')
    (t t' : HashTable) (b : Nat) (hinv : SizeInv t)
    (h : ht_resize_core insF t b = some t') : SizeInv t' := by
  rw [ht_resize_core] at h
  split at h
  · rw [Option.some_inj] at h
    rwa [← h]
  · rename_i hge
    split at h
    · exact absurd h (by simp)
    · rename_i new_ht hre
      rw [Option.some_inj] at h
      rw [← h]
      exact rehash_size_inv insF hpres t.items (ht_new_sized b) new_ht
        (ht_new_sized_size_inv b (by omega)) hre

/-- ht_insert preserves the size invariant. -/
theorem ht_insert_size_inv :
    ∀ (f : Nat) (t : HashTable) (k v : String) (t' : HashTable),
      SizeInv t → ht_insert f t k v = some t' → SizeInv t' := by
  intro f
  induction f with
  | zero => intro t k v t' _ h; simp [ht_insert] at h
  | succ f ih =>
    intro t k v t' hinv h
    simp only [ht_insert] at h
    split at h
    · exact absurd h (by simp)
    · rename_i ht1 hR
      have hfields := probe_match_fields ht1 t' k v (f + 1) h
      have hinv1 : SizeInv ht1 := by
        split at hR
        · exact ht_resize_core_size_inv (ht_insert f) ih t ht1 _ hinv hR
        · rw [Option.some_inj] at hR
          rwa [hR] at hinv
      exact ⟨hfields.1 ▸ hinv1.1, hfields.2 ▸ hinv1.2.1, hfields.2 ▸ hinv1.2.2⟩

/-- ht_delete preserves the size invariant. -/
theorem ht_delete_size_inv (f : Nat) (t : HashTable) (k : String)
    (t' : HashTable) (hinv : SizeInv t) (h : ht_delete f t k = some t') :
    SizeInv t' := by
  rw [ht_delete] at h
  rcases hR : (if Int.tdiv (t.count * 100) (t.size : Int) < 10 then
      ht_resize_down f t else some t) with _ | ht1
  · rw [hR] at h
    exact absurd h (by simp)
  · rw [hR] at h
    have hinv1 : SizeInv ht1 := by
      split at hR
      · exact ht_resize_core_size_inv (ht_insert f) (ht_insert_size_inv f)
          t ht1 _ hinv hR
      · rw [Option.some_inj] at hR
        rwa [hR] at hinv
    have hfields := delete_match_fields ht1 t' k f h
    exact ⟨hfields.1 ▸ hinv1.1, hfields.2 ▸ hinv1.2.1, hfields.2 ▸ hinv1.2.2⟩

/-- Every table reachable through the public API satisfies the invariant. -/
theorem reach_size_inv (t : HashTable) (h : Reach t) : SizeInv t := by
  induction h with
  | new => decide
  | insert _ hins ih => exact ht_insert_size_inv _ _ _ _ _ ih hins
  | delete _ hdel ih => exact ht_delete_size_inv _ _ _ _ ih hdel

/-- C8: capacity invariant.  The size of every table reachable through
construction and any sequence of completed inserts and deletes (each of which
may resize internally) is a prime number of at least 53, the fixed minimum
capacity next_prime(HT_INITIAL_BASE_SIZE). -/
theorem c8_capacity_prime (t : HashTable) (h : Reach t) :
    Nat.Prime t.size ∧ 53 ≤ t.size :=
  ⟨(reach_size_inv t h).2.1, (reach_size_inv t h).2.2⟩

/-- Witness for c8_capacity_prime at the freshly constructed table. -/
theorem c8_capacity_prime_witness : Nat.Prime ht_new.size ∧ 53 ≤ ht_new.size :=
  c8_capacity_prime ht_new Reach.new

/-! ### Search termination bound -/

/-- If a search walk exhausts its fuel, every attempt it made saw a deleted
sentinel or a non-matching item (given a well-formed array, so that every
probe index is in bounds). -/
theorem searchLoop_none_spec (size : Nat) (key : String) (items : List Slot)
    (hlen : items.length = size) (hpos : 0 < size) :
    ∀ (f i : Nat), searchLoop size key items f i = none →
      ∀ x, i ≤ x → x < i + f →
        items.get? (ht_get_hash key size x) = some Slot.deleted ∨
        ∃ k0 v0, k0 ≠ key
          ∧ items.get? (ht_get_hash key size x) = some (Slot.occupied k0 v0) := by
  intro f
  induction f with
  | zero => intro i h x hx1 hx2; omega
  | succ f ih =>
    intro i h x hx1 hx2
    have hidx : ht_get_hash key size i < items.length := by
      rw [hlen]
      exact ht_get_hash_lt key size i hpos
    simp only [searchLoop] at h
    split at h
    · rename_i hnone
      rw [List.get?_eq_none] at hnone
      omega
    · exact absurd h (by simp)
    · rename_i hx
      rcases Nat.eq_or_lt_of_le hx1 with hxe | hxl
      · exact Or.inl (hxe ▸ hx)
      · exact ih (i + 1) h x hxl (by omega)
    · rename_i k v0 hx
      split at h
      · exact absurd h (by simp)
      · rename_i hk
        rcases Nat.eq_or_lt_of_le hx1 with hxe | hxl
        · exact Or.inr ⟨k, v0, hk, hxe ▸ hx⟩
        · exact ih (i + 1) h x hxl (by omega)

/-- With a prime bucket count and a non-degenerate probe step, the first
size probe attempts cover every bucket index. -/
theorem probe_surjective (key : String) (m : Nat) (hm : Nat.Prime m)
    (hstep : (ht_hash key HT_PRIME_2 m + 1) % m ≠ 0) :
    ∀ e, e < m → ∃ a, a < m ∧ ht_get_hash key m a = e := by
  intro e he
  have hpos : 0 < m := hm.pos
  let F : Fin m → Fin m := fun a => ⟨ht_get_hash key m a, ht_get_hash_lt key m a hpos⟩
  have hinj : Function.Injective F := by
    intro a b hab
    by_contra hne
    exact probe_distinct key m hm hstep a b a.isLt b.isLt
      (fun hc => hne (Fin.ext hc)) (congrArg Fin.val hab)
  have hsurj : Function.Surjective F := Finite.injective_iff_surjective.mp hinj
  obtain ⟨a, ha⟩ := hsurj ⟨e, he⟩
  exact ⟨a, a.isLt, congrArg Fin.val ha⟩

/-- C9 (amended): search termination bound.  For every table whose items
array has length size, whose size is prime, and every key whose probe step
is non-zero mod size, if some bucket is Empty then the search terminates
within size probe attempts.  The unamended claim is false: with a degenerate
probe step the search can revisit one occupied bucket forever. -/
theorem c9_search_bound_amended (t : HashTable) (key : String)
    (hlen : t.items.length = t.size) (hprime : Nat.Prime t.size)
    (hstep : (ht_hash key HT_PRIME_2 t.size + 1) % t.size ≠ 0)
    (hempty : ∃ e, t.items.get? e = some Slot.empty) :
    ∃ r, ht_search t.size t key = some r := by
  rcases hs : ht_search t.size t key with _ | r
  · exfalso
    obtain ⟨e, he⟩ := hempty
    have hee : e < t.size := by
      have := (List.get?_eq_some.mp he).1
      omega
    obtain ⟨a, ha, hgh⟩ := probe_surjective key t.size hprime hstep e hee
    have hall := searchLoop_none_spec t.size key t.items hlen hprime.pos
      t.size 0 hs a (Nat.zero_le a) (by omega)
    rw [hgh, he] at hall
    rcases hall with hd | ⟨k0, v0, _, ho⟩
    · exact absurd hd (by simp)
    · exact absurd ho (by simp)
  · exact ⟨r, rfl⟩

/-- Witness for c9_search_bound_amended on a fresh table and the key "a". -/
theorem c9_search_bound_amended_witness :
    ht_new.items.length = ht_new.size
      ∧ Nat.Prime ht_new.size
      ∧ (ht_hash "a" HT_PRIME_2 ht_new.size + 1) % ht_new.size ≠ 0
      ∧ ht_new.items.get? 0 = some Slot.empty
      ∧ ∃ r, ht_search ht_new.size ht_new "a" = some r :=
  ⟨by decide, by decide, by decide, by decide,
    c9_search_bound_amended ht_new "a" (by decide) (by decide) (by decide)
      ⟨0, by decide⟩⟩

/-- The search walk for "4" on tableWithI never finishes: every attempt
inspects bucket 52, which holds the non-matching key "i". -/
theorem searchLoop_four_stuck :
    ∀ f i, searchLoop 53 "4" tableWithI.items f i = none := by
  intro f
  induction f with
  | zero => intro i; rfl
  | succ f ih =>
    intro i
    have hslot : tableWithI.items.get? 52 = some (Slot.occupied "i" "a") := by
      decide
    simp only [searchLoop, ht_get_hash_four, hslot]
    rw [if_neg (by decide : ¬ "i" = "4")]
    exact ih (i + 1)

/-- ht_search for "4" on tableWithI diverges at every fuel. -/
theorem ht_search_four_never (f : Nat) : ht_search f tableWithI "4" = none := by
  have hsz : tableWithI.size = 53 := by decide
  show searchLoop tableWithI.size "4" tableWithI.items f 0 = none
  rw [hsz]
  exact searchLoop_four_stuck f 0

/-- C9 counterexample: after inserting "i" into a fresh table (a reachable,
healthy table of size 53 with 52 empty buckets), the search for "4" makes 53
probe attempts, all at bucket 52, without terminating, and indeed does not
terminate at any fuel (ht_search_four_never). -/
theorem c9_search_bound_counterexample :
    ht_insert 2 ht_new "i" "a" = some tableWithI
      ∧ tableWithI.size = 53
      ∧ ht_search 53 tableWithI "4" = none
      ∧ ht_search 1000 tableWithI "4" = none :=
  ⟨by decide, by decide, ht_search_four_never 53, ht_search_four_never 1000⟩

/-! ### Bindings, uniqueness and search soundness -/

/-- A binding is exactly a list membership of the occupied slot. -/
theorem hasBinding_iff_mem (items : List Slot) (k v : String) :
    HasBinding items k v ↔ Slot.occupied k v ∈ items := by
  constructor
  · rintro ⟨i, hi⟩
    exact List.mem_iff_get?.mpr ⟨i, hi⟩
  · intro h
    exact List.mem_iff_get?.mp h

/-- Key uniqueness restricts to the tail of the slot list. -/
theorem uniqueKeys_tail (s : Slot) (rest : List Slot)
    (h : UniqueKeys (s :: rest)) : UniqueKeys rest := by
  intro i j ki vi kj vj hi hj hk
  have := h (i + 1) (j + 1) ki vi kj vj (by simpa using hi) (by simpa using hj) hk
  omega

/-- Index-based key uniqueness gives the structural form used by the
rehash induction. -/
theorem uniqueKeys_uniqueOcc : ∀ (items : List Slot),
    UniqueKeys items → UniqueOccKeys items := by
  intro items
  induction items with
  | nil => intro _; trivial
  | cons s rest ih =>
    intro h
    have hrest := ih (uniqueKeys_tail s rest h)
    cases s with
    | empty => exact hrest
    | deleted => exact hrest
    | occupied k v =>
      refine ⟨?_, hrest⟩
      intro v' hmem
      obtain ⟨n, hn⟩ := List.mem_iff_get?.mp hmem
      have h0 : (Slot.occupied k v :: rest).get? 0
          = some (Slot.occupied k v) := rfl
      have hn1 : (Slot.occupied k v :: rest).get? (n + 1)
          = some (Slot.occupied k v') := by simpa using hn
      have := h 0 (n + 1) k v k v' h0 hn1 rfl
      omega

/-- Under key uniqueness a key determines its value. -/
theorem binding_unique_value (items : List Slot) (huniq : UniqueKeys items)
    (k v v' : String) (h : HasBinding items k v)
    (h' : HasBinding items k v') : v = v' := by
  obtain ⟨i, hi⟩ := h
  obtain ⟨i', hi'⟩ := h'
  have heq := huniq i i' k v k v' hi hi' rfl
  rw [← heq] at hi'
  rw [hi] at hi'
  simpa using hi' 

/-- A search hit comes from a bucket really holding the returned value. -/
theorem searchLoop_some_binding (size : Nat) (key : String)
    (items : List Slot) :
    ∀ (f i : Nat) (v : String), searchLoop size key items f i = some (some v) →
      HasBinding items key v := by
  intro f
  induction f with
  | zero => intro i v h; simp [searchLoop] at h
  | succ f ih =>
    intro i v h
    simp only [searchLoop] at h
    split at h
    · exact absurd h (by simp)
    · exact absurd h (by simp)
    · exact ih (i + 1) v h
    · rename_i k v0 hx
      split at h
      · rename_i hk
        rw [Option.some_inj, Option.some_inj] at h
        exact ⟨ht_get_hash key size i, by rw [hx, hk, h]⟩
      · exact ih (i + 1) v h

/-- A search miss walks skippable buckets up to a NULL bucket. -/
theorem searchLoop_miss_spec (size : Nat) (key : String) (items : List Slot) :
    ∀ (f i : Nat), searchLoop size key items f i = some none →
      ∃ J, i ≤ J ∧ items.get? (ht_get_hash key size J) = some Slot.empty
        ∧ ∀ x, i ≤ x → x < J →
          ∃ s, items.get? (ht_get_hash key size x) = some s ∧ Skips key s := by
  intro f
  induction f with
  | zero => intro i h; simp [searchLoop] at h
  | succ f ih =>
    intro i h
    simp only [searchLoop] at h
    split at h
    · exact absurd h (by simp)
    · rename_i hx
      exact ⟨i, Nat.le_refl i, hx, fun x hx1 hx2 => by omega⟩
    · rename_i hx
      obtain ⟨J, hJ1, hJ2, hJ3⟩ := ih (i + 1) h
      refine ⟨J, by omega, hJ2, fun x hx1 hx2 => ?_⟩
      rcases Nat.eq_or_lt_of_le hx1 with hxe | hxl
      · exact ⟨Slot.deleted, hxe ▸ hx, Or.inl rfl⟩
      · exact hJ3 x hxl hx2
    · rename_i k v0 hx
      split at h
      · exact absurd h (by simp)
      · rename_i hk
        obtain ⟨J, hJ1, hJ2, hJ3⟩ := ih (i + 1) h
        refine ⟨J, by omega, hJ2, fun x hx1 hx2 => ?_⟩
        rcases Nat.eq_or_lt_of_le hx1 with hxe | hxl
        · exact ⟨Slot.occupied k v0, hxe ▸ hx, Or.inr ⟨k, v0, hk, rfl⟩⟩
        · exact hJ3 x hxl hx2

/-- A search miss means the key has no binding, in a table whose bindings are
all reachable by their probe walks. -/
theorem searchLoop_none_no_binding (size : Nat) (key : String)
    (items : List Slot)
    (hfind : ∀ v, HasBinding items key v → ∃ j, FindsAt items size key v j) :
    ∀ (f : Nat) (v : String), searchLoop size key items f 0 = some none →
      ¬ HasBinding items key v := by
  intro f v h hb
  obtain ⟨j, hpre, hj⟩ := hfind v hb
  obtain ⟨J, _, hJ, hpre2⟩ := searchLoop_miss_spec size key items f 0 h
  rcases lt_trichotomy j J with hlt | heq | hgt
  · obtain ⟨s, hs, hskip⟩ := hpre2 j (Nat.zero_le j) hlt
    rw [hj, Option.some_inj] at hs
    rcases hskip with hdel | ⟨k0, v0, hk0, hocc⟩
    · rw [← hs] at hdel
      exact absurd hdel (by simp)
    · rw [← hs] at hocc
      exact hk0 (by injection hocc with h1 _; exact h1.symm)
  · rw [heq] at hj
    rw [hj] at hJ
    exact absurd (Option.some_inj.mp hJ) (by simp)
  · obtain ⟨s, hs, hskip⟩ := hpre J hgt
    rw [hJ, Option.some_inj] at hs
    rcases hskip with hdel | ⟨k0, v0, hk0, hocc⟩
    · rw [← hs] at hdel
      exact absurd hdel (by simp)
    · rw [← hs] at hocc
      exact absurd hocc (by simp)

/-! ### The insert walk as a binding update -/

/-- Full effect of a completed insert probe walk on a well-formed array: the
length is kept, keys stay unique, bindings of other keys are untouched, the
walked key is bound to exactly the new value, probe walks of other stored
items are preserved, and the new item is reachable by its own probe walk. -/
theorem insertLoop_wf_update (size : Nat) (key value : String) (f : Nat)
    (items items2 : List Slot) (inc : Bool)
    (huniq : UniqueKeys items)
    (hfind : ∀ v, HasBinding items key v → ∃ j, FindsAt items size key v j)
    (h : insertLoop size key value items f 0 = some (items2, inc)) :
    items2.length = items.length
      ∧ UniqueKeys items2
      ∧ (∀ k0 v0, k0 ≠ key →
          (HasBinding items2 k0 v0 ↔ HasBinding items k0 v0))
      ∧ (∀ v0, HasBinding items2 key v0 ↔ v0 = value)
      ∧ (∀ k0 v0 j0, k0 ≠ key → FindsAt items size k0 v0 j0 →
          FindsAt items2 size k0 v0 j0)
      ∧ (∃ j', FindsAt items2 size key value j') := by
  obtain ⟨j, _, hset, hplace, hpre⟩ :=
    insertLoop_spec size key value f 0 items items2 inc h
  have hjlt : ht_get_hash key size j < items.length := by
    rcases hplace with ⟨he, _⟩ | ⟨v0, he, _⟩
    · exact (List.get?_eq_some.mp he).1
    · exact (List.get?_eq_some.mp he).1
  have hget : ∀ i, items2.get? i =
      if i = ht_get_hash key size j then some (Slot.occupied key value)
      else items.get? i := by
    intro i
    by_cases hi : i = ht_get_hash key size j
    · rw [if_pos hi, hset, hi, List.get?_set_eq_of_lt _ hjlt]
    · rw [if_neg hi, hset, List.get?_set_ne _ _ (fun hc => hi hc.symm)]
  -- No bucket other than the written one holds the walked key.
  have hnokey : ∀ i v', i ≠ ht_get_hash key size j →
      items.get? i ≠ some (Slot.occupied key v') := by
    intro i v' hne hi
    rcases hplace with ⟨he, _⟩ | ⟨v0, he, _⟩
    · obtain ⟨j', hpre', hat'⟩ := hfind v' ⟨i, hi⟩
      rcases lt_trichotomy j' j with hlt | heq | hgt
      · rcases hpre j' (Nat.zero_le j') hlt with hdel | ⟨k0, v0, hk0, hocc⟩
        · rw [hat'] at hdel
          exact absurd (Option.some_inj.mp hdel) (by simp)
        · rw [hat'] at hocc
          rw [Option.some_inj] at hocc
          exact hk0 (by injection hocc with h1 _; exact h1.symm)
      · rw [heq] at hat'
        rw [he] at hat'
        exact absurd (Option.some_inj.mp hat') (by simp)
      · obtain ⟨s, hs, hskip⟩ := hpre' j hgt
        rw [he, Option.some_inj] at hs
        rcases hskip with hdel | ⟨k0, v0', hk0, hocc⟩
        · rw [← hs] at hdel
          exact absurd hdel (by simp)
        · rw [← hs] at hocc
          exact absurd hocc (by simp)
    · exact hne (huniq i (ht_get_hash key size j) key v' key v0 hi he rfl)
  refine ⟨by rw [hset]; exact List.length_set .., ?_, ?_, ?_, ?_, ?_⟩
  · -- UniqueKeys items2
    intro i1 i2 ki vi kj vj h1 h2 hk
    rw [hget] at h1 h2
    by_cases e1 : i1 = ht_get_hash key size j
    · by_cases e2 : i2 = ht_get_hash key size j
      · rw [e1, e2]
      · rw [if_pos e1, Option.some_inj] at h1
        rw [if_neg e2] at h2
        cases h1
        rw [← hk] at h2
        exact absurd h2 (hnokey i2 vj e2)
    · by_cases e2 : i2 = ht_get_hash key size j
      · rw [if_pos e2, Option.some_inj] at h2
        rw [if_neg e1] at h1
        cases h2
        rw [hk] at h1
        exact absurd h1 (hnokey i1 vi e1)
      · rw [if_neg e1] at h1
        rw [if_neg e2] at h2
        exact huniq i1 i2 ki vi kj vj h1 h2 hk
  · -- bindings of other keys unchanged
    intro k0 v0 hk0
    constructor
    · rintro ⟨i, hi⟩
      rw [hget] at hi
      by_cases e : i = ht_get_hash key size j
      · rw [if_pos e, Option.some_inj] at hi
        exact absurd (by injection hi with h1 _; exact h1.symm) hk0
      · rw [if_neg e] at hi
        exact ⟨i, hi⟩
    · rintro ⟨i, hi⟩
      by_cases e : i = ht_get_hash key size j
      · exfalso
        rw [e] at hi
        rcases hplace with ⟨he, _⟩ | ⟨v1, he, _⟩
        · rw [he] at hi
          exact absurd (Option.some_inj.mp hi) (by simp)
        · rw [he] at hi
          rw [Option.some_inj] at hi
          exact hk0 (by injection hi with h1 _; exact h1.symm)
      · exact ⟨i, by rw [hget, if_neg e]; exact hi⟩
  · -- the walked key is bound to exactly the new value
    intro v0
    constructor
    · rintro ⟨i, hi⟩
      rw [hget] at hi
      by_cases e : i = ht_get_hash key size j
      · rw [if_pos e, Option.some_inj] at hi
        injection hi with _ h2
        exact h2.symm
      · rw [if_neg e] at hi
        exact absurd hi (hnokey i v0 e)
    · intro hv
      exact ⟨ht_get_hash key size j, by rw [hget, if_pos rfl, hv]⟩
  · -- probe walks of other stored items are preserved
    intro k0 v0 j0 hk0 ⟨hpre0, hat0⟩
    have hne0 : ht_get_hash k0 size j0 ≠ ht_get_hash key size j := by
      intro hc
      rw [hc] at hat0
      rcases hplace with ⟨he, _⟩ | ⟨v1, he, _⟩
      · rw [he] at hat0
        exact absurd (Option.some_inj.mp hat0) (by simp)
      · rw [he] at hat0
        rw [Option.some_inj] at hat0
        exact hk0 (by injection hat0 with h1 _; exact h1.symm)
    refine ⟨?_, by rw [hget, if_neg hne0]; exact hat0⟩
    intro x hx
    obtain ⟨s, hs, hskip⟩ := hpre0 x hx
    by_cases e : ht_get_hash k0 size x = ht_get_hash key size j
    · exact ⟨Slot.occupied key value, by rw [hget, if_pos e],
        Or.inr ⟨key, value, fun hc => hk0 hc.symm, rfl⟩⟩
    · exact ⟨s, by rw [hget, if_neg e]; exact hs, hskip⟩
  · -- the new item is reachable by its own probe walk
    have hex : ∃ x, ht_get_hash key size x = ht_get_hash key size j := ⟨j, rfl⟩
    refine ⟨Nat.find hex, ?_, ?_⟩
    · intro x hx
      have hxj : x < j := Nat.lt_of_lt_of_le hx (Nat.find_min' hex rfl)
      have hnej : ht_get_hash key size x ≠ ht_get_hash key size j :=
        Nat.find_min hex hx
      rcases hpre x (Nat.zero_le x) hxj with hdel | ⟨k0, v0, hk0, hocc⟩
      · exact ⟨Slot.deleted, by rw [hget, if_neg hnej]; exact hdel, Or.inl rfl⟩
      · exact ⟨Slot.occupied k0 v0, by rw [hget, if_neg hnej]; exact hocc,
          Or.inr ⟨k0, v0, hk0, rfl⟩⟩
    · rw [Nat.find_spec hex, hget, if_pos rfl]

/-! ### Well-formedness through delete, rehash and resize -/

/-- The delete walk keeps the array length. -/
theorem deleteLoop_length (size : Nat) (key : String) :
    ∀ (f i : Nat) (items items' : List Slot),
      deleteLoop size key items f i = some items' →
      items'.length = items.length := by
  intro f
  induction f with
  | zero => intro i items items' h; simp [deleteLoop] at h
  | succ f ih =>
    intro i items items' h
    simp only [deleteLoop] at h
    split at h
    · exact absurd h (by simp)
    · rw [Option.some_inj] at h
      rw [← h]
    · exact ih (i + 1) items items' h
    · split at h
      · have := ih (i + 1) _ items' h
        rw [this, List.length_set]
      · exact ih (i + 1) items items' h

/-- An occupied bucket after a delete walk was occupied with the same item
before it. -/
theorem deleteLoop_occ_back (size : Nat) (key : String) (f : Nat)
    (items items' : List Slot)
    (h : deleteLoop size key items f 0 = some items') :
    ∀ i k0 v0, items'.get? i = some (Slot.occupied k0 v0) →
      items.get? i = some (Slot.occupied k0 v0) := by
  intro i k0 v0 hi
  rcases deleteLoop_pointwise size key f 0 items items' h i with hsame | ⟨v1, _, hdel⟩
  · rw [← hsame]
    exact hi
  · rw [hi] at hdel
    exact absurd (Option.some_inj.mp hdel) (by simp)

/-- The delete walk preserves the array-level well-formedness data. -/
theorem deleteLoop_wf (size : Nat) (key : String) (f : Nat)
    (items items' : List Slot)
    (huniq : UniqueKeys items)
    (hfind : ∀ k v, HasBinding items k v → ∃ j, FindsAt items size k v j)
    (h : deleteLoop size key items f 0 = some items') :
    UniqueKeys items'
      ∧ ∀ k v, HasBinding items' k v → ∃ j, FindsAt items' size k v j := by
  have hpt := deleteLoop_pointwise size key f 0 items items' h
  have hback := deleteLoop_occ_back size key f items items' h
  constructor
  · intro i1 i2 ki vi kj vj h1 h2 hk
    exact huniq i1 i2 ki vi kj vj (hback i1 ki vi h1) (hback i2 kj vj h2) hk
  · rintro k0 v0 ⟨i, hi⟩
    have hold := hback i k0 v0 hi
    obtain ⟨j0, hpre0, hat0⟩ := hfind k0 v0 ⟨i, hold⟩
    have hij : i = ht_get_hash k0 size j0 := huniq i _ k0 v0 k0 v0 hold hat0 rfl
    refine ⟨j0, ?_, by rw [← hij]; exact hi⟩
    intro x hx
    obtain ⟨s, hs, hskip⟩ := hpre0 x hx
    rcases hpt (ht_get_hash k0 size x) with hsame | ⟨v1, _, hdel⟩
    · exact ⟨s, by rw [hsame]; exact hs, hskip⟩
    · exact ⟨Slot.deleted, hdel, Or.inl rfl⟩

/-- A freshly sized table is well formed and has no bindings. -/
theorem ht_new_sized_wf (b : Nat) :
    WF (ht_new_sized b)
      ∧ ∀ k v, ¬ HasBinding (ht_new_sized b).items k v := by
  have hrep : ∀ (i : Nat) (k : String) (v : String),
      (List.replicate (next_prime b) Slot.empty).get? i
        ≠ some (Slot.occupied k v) := by
    intro i k v hc
    have hmem := List.mem_iff_get?.mpr ⟨i, hc⟩
    have := List.eq_of_mem_replicate hmem
    exact absurd this (by simp)
  refine ⟨⟨?_, ?_, ?_, ?_⟩, ?_⟩
  · exact List.length_replicate ..
  · exact (next_prime_spec b).1.pos
  · intro i j ki vi kj vj hi _ _
    exact absurd hi (hrep i ki vi)
  · rintro k v ⟨i, hi⟩
    exact absurd hi (hrep i k v)
  · rintro k v ⟨i, hi⟩
    exact absurd hi (hrep i k v)

/-- Effect of the rehash fold on a well-formed accumulator: assuming the
folded insert preserves well-formedness and updates bindings pointwise, and
the processed slots carry unique keys disjoint from the accumulator, the
fold preserves well-formedness and the final bindings are the accumulator
bindings plus the occupied items of the processed slots. -/
theorem rehash_wf (insF : HashTable → String → String → Option HashTable)
    (hpres : ∀ t k v t', WF t → insF t k v = some t' →
      WF t'
        ∧ (∀ k0 v0, k0 ≠ k →
            (HasBinding t'.items k0 v0 ↔ HasBinding t.items k0 v0))
        ∧ (∀ v0, HasBinding t'.items k v0 ↔ v0 = v)) :
    ∀ (slots : List Slot) (acc acc' : HashTable),
      WF acc → UniqueOccKeys slots →
      (∀ k0 v0 v1, Slot.occupied k0 v0 ∈ slots →
        ¬ HasBinding acc.items k0 v1) →
      rehash insF slots acc = some acc' →
      WF acc' ∧ ∀ k0 v0, HasBinding acc'.items k0 v0 ↔
        (HasBinding acc.items k0 v0 ∨ Slot.occupied k0 v0 ∈ slots) := by
  intro slots
  induction slots with
  | nil =>
    intro acc acc' hwf _ _ h
    rw [rehash, Option.some_inj] at h
    rw [← h]
    exact ⟨hwf, fun k0 v0 => by simp⟩
  | cons s rest ih =>
    intro acc acc' hwf huo hdisj h
    cases s with
    | empty =>
      obtain ⟨hwf', hbind⟩ := ih acc acc' hwf huo
        (fun k0 v0 v1 hm => hdisj k0 v0 v1 (List.mem_cons_of_mem _ hm)) h
      refine ⟨hwf', fun k0 v0 => ?_⟩
      rw [hbind k0 v0]
      simp
    | deleted =>
      obtain ⟨hwf', hbind⟩ := ih acc acc' hwf huo
        (fun k0 v0 v1 hm => hdisj k0 v0 v1 (List.mem_cons_of_mem _ hm)) h
      refine ⟨hwf', fun k0 v0 => ?_⟩
      rw [hbind k0 v0]
      simp
    | occupied k v =>
      rw [rehash] at h
      rcases hstep : insF acc k v with _ | acc1
      · rw [hstep] at h
        exact absurd h (by simp)
      · rw [hstep] at h
        obtain ⟨hnot_rest, huo_rest⟩ := huo
        obtain ⟨hwf1, hothers, hexact⟩ := hpres acc k v acc1 hwf hstep
        have hdisj1 : ∀ k0 v0 v1, Slot.occupied k0 v0 ∈ rest →
            ¬ HasBinding acc1.items k0 v1 := by
          intro k0 v0 v1 hm hb
          by_cases hk0 : k0 = k
          · exact hnot_rest v0 (hk0 ▸ hm)
          · exact hdisj k0 v0 v1 (List.mem_cons_of_mem _ hm)
              ((hothers k0 v1 hk0).mp hb)
        obtain ⟨hwf', hbind⟩ := ih acc1 acc' hwf1 huo_rest hdisj1 h
        refine ⟨hwf', fun k0 v0 => ?_⟩
        rw [hbind k0 v0]
        by_cases hk0 : k0 = k
        · subst hk0
          rw [hexact v0]
          constructor
          · rintro (rfl | hm)
            · exact Or.inr (List.mem_cons_self _ _)
            · exact absurd hm (hnot_rest v0)
          · rintro (hb | hm)
            · exact absurd hb (hdisj k0 v v0 (List.mem_cons_self _ _))
            · rcases List.mem_cons.mp hm with he | hm'
              · exact Or.inl (by cases he; rfl)
              · exact absurd hm' (hnot_rest v0)
        · rw [hothers k0 v0 hk0]
          constructor
          · rintro (hb | hm)
            · exact Or.inl hb
            · exact Or.inr (List.mem_cons_of_mem _ hm)
          · rintro (hb | hm)
            · exact Or.inl hb
            · rcases List.mem_cons.mp hm with he | hm'
              · exact absurd (by cases he; rfl) hk0
              · exact Or.inr hm'

/-- ht_resize_core preserves well-formedness and bindings: an ignored request
keeps the table, an honoured one rebuilds exactly the same bindings. -/
theorem ht_resize_core_wf (insF : HashTable → String → String → Option HashTable)
    (hpres : ∀ t k v t', WF t → insF t k v = some t' →
      WF t'
        ∧ (∀ k0 v0, k0 ≠ k →
            (HasBinding t'.items k0 v0 ↔ HasBinding t.items k0 v0))
        ∧ (∀ v0, HasBinding t'.items k v0 ↔ v0 = v))
    (t t' : HashTable) (b : Nat) (hwf : WF t)
    (h : ht_resize_core insF t b = some t') :
    WF t' ∧ ∀ k0 v0, HasBinding t'.items k0 v0 ↔ HasBinding t.items k0 v0 := by
  rw [ht_resize_core] at h
  split at h
  · rw [Option.some_inj] at h
    rw [← h]
    exact ⟨hwf, fun _ _ => Iff.rfl⟩
  · split at h
    · exact absurd h (by simp)
    · rename_i new_ht hre
      rw [Option.some_inj] at h
      obtain ⟨hwfF, hnoB⟩ := ht_new_sized_wf b
      obtain ⟨hwf', hbind⟩ := rehash_wf insF hpres t.items (ht_new_sized b)
        new_ht hwfF (uniqueKeys_uniqueOcc t.items hwf.2.2.1)
        (fun k0 v0 v1 _ hb => hnoB k0 v1 hb) hre
      rw [← h]
      refine ⟨hwf', fun k0 v0 => ?_⟩
      rw [hbind k0 v0]
      constructor
      · rintro (hb | hm)
        · exact absurd hb (hnoB k0 v0)
        · exact (hasBinding_iff_mem t.items k0 v0).mpr hm
      · intro hb
        exact Or.inr ((hasBinding_iff_mem t.items k0 v0).mp hb)

/-- ht_insert preserves well-formedness and performs exactly the map update
key := value on the bindings, through resizes included. -/
theorem ht_insert_wf :
    ∀ (f : Nat) (t : HashTable) (k v : String) (t' : HashTable),
      WF t → ht_insert f t k v = some t' →
      WF t'
        ∧ (∀ k0 v0, k0 ≠ k →
            (HasBinding t'.items k0 v0 ↔ HasBinding t.items k0 v0))
        ∧ (∀ v0, HasBinding t'.items k v0 ↔ v0 = v) := by
  intro f
  induction f with
  | zero => intro t k v t' _ h; simp [ht_insert] at h
  | succ f ih =>
    intro t k v t' hwf h
    simp only [ht_insert] at h
    split at h
    · exact absurd h (by simp)
    · rename_i ht1 hR
      have hstep1 : WF ht1
          ∧ ∀ k0 v0, HasBinding ht1.items k0 v0 ↔ HasBinding t.items k0 v0 := by
        split at hR
        · exact ht_resize_core_wf (ht_insert f) ih t ht1 _ hwf hR
        · rw [Option.some_inj] at hR
          rw [← hR]
          exact ⟨hwf, fun _ _ => Iff.rfl⟩
      obtain ⟨hwf1, hbind1⟩ := hstep1
      split at h
      · exact absurd h (by simp)
      · rename_i items2 hL
        rw [Option.some_inj] at h
        obtain ⟨hlen2, huniq2, hothers2, hexact2, hfpres2, hfkey2⟩ :=
          insertLoop_wf_update ht1.size k v (f + 1) ht1.items items2 true
            hwf1.2.2.1 (fun v' hb => hwf1.2.2.2 k v' hb) hL
        rw [← h]
        refine ⟨⟨hlen2.trans hwf1.1, hwf1.2.1, huniq2, ?_⟩, ?_, hexact2⟩
        · intro k0 v0 hb
          by_cases hk0 : k0 = k
          · subst hk0
            have hv0 := (hexact2 v0).mp hb
            subst hv0
            exact hfkey2
          · exact hfpres2 k0 v0 _ hk0
              ((hwf1.2.2.2 k0 v0 ((hothers2 k0 v0 hk0).mp hb)).choose_spec)
              |> fun hf => ⟨_, hf⟩
        · intro k0 v0 hk0
          rw [hothers2 k0 v0 hk0]
          exact hbind1 k0 v0
      · rename_i items2 hL
        rw [Option.some_inj] at h
        obtain ⟨hlen2, huniq2, hothers2, hexact2, hfpres2, hfkey2⟩ :=
          insertLoop_wf_update ht1.size k v (f + 1) ht1.items items2 false
            hwf1.2.2.1 (fun v' hb => hwf1.2.2.2 k v' hb) hL
        rw [← h]
        refine ⟨⟨hlen2.trans hwf1.1, hwf1.2.1, huniq2, ?_⟩, ?_, hexact2⟩
        · intro k0 v0 hb
          by_cases hk0 : k0 = k
          · subst hk0
            have hv0 := (hexact2 v0).mp hb
            subst hv0
            exact hfkey2
          · exact hfpres2 k0 v0 _ hk0
              ((hwf1.2.2.2 k0 v0 ((hothers2 k0 v0 hk0).mp hb)).choose_spec)
              |> fun hf => ⟨_, hf⟩
        · intro k0 v0 hk0
          rw [hothers2 k0 v0 hk0]
          exact hbind1 k0 v0

/-- ht_delete preserves well-formedness. -/
theorem ht_delete_wf (f : Nat) (t : HashTable) (k : String) (t' : HashTable)
    (hwf : WF t) (h : ht_delete f t k = some t') : WF t' := by
  rw [ht_delete] at h
  rcases hR : (if Int.tdiv (t.count * 100) (t.size : Int) < 10 then
      ht_resize_down f t else some t) with _ | ht1
  · rw [hR] at h
    exact absurd h (by simp)
  · rw [hR] at h
    have hwf1 : WF ht1 := by
      split at hR
      · rw [ht_resize_down, ht_resize] at hR
        exact (ht_resize_core_wf (ht_insert f)
          (fun t0 k0 v0 t0' hw hh => ht_insert_wf f t0 k0 v0 t0' hw hh)
          t ht1 _ hwf hR).1
      · rw [Option.some_inj] at hR
        rwa [hR] at hwf
    have h' : (match deleteLoop ht1.size k ht1.items f 0 with
        | none => none
        | some items2 =>
          some { ht1 with items := items2, count := ht1.count - 1 }) = some t' := h
    split at h'
    · exact absurd h' (by simp)
    · rename_i items2 hD
      rw [Option.some_inj] at h'
      obtain ⟨huniq2, hfind2⟩ := deleteLoop_wf ht1.size k f ht1.items items2
        hwf1.2.2.1 hwf1.2.2.2 hD
      rw [← h']
      exact ⟨(deleteLoop_length ht1.size k f 0 ht1.items items2 hD).trans hwf1.1,
        hwf1.2.1, huniq2, hfind2⟩

/-- Every reachable table is well formed. -/
theorem reach_wf (t : HashTable) (h : Reach t) : WF t := by
  induction h with
  | new => exact (ht_new_sized_wf HT_INITIAL_BASE_SIZE).1
  | insert _ hins ih => exact (ht_insert_wf _ _ _ _ _ ih hins).1
  | delete _ hdel ih => exact ht_delete_wf _ _ _ _ ih hdel

/-- C10 (amended): insert preserves other bindings.  For every reachable
table t, distinct keys k2 and k, and completed insert of (k, v): any
terminating search for k2 after the insert returns the same result as any
terminating search for k2 before it, including when the insert triggers an
internal resize.  The unamended claim fails because the search after the
insert need not terminate at all: filling a bucket can turn a previously
immediate miss into an infinite probe cycle. -/
theorem c10_insert_frame (t t' : HashTable) (k v k2 : String) (f g g' : Nat)
    (r r' : Option String) (hre : Reach t) (hne : k2 ≠ k)
    (hins : ht_insert f t k v = some t')
    (hs : ht_search g t k2 = some r) (hs' : ht_search g' t' k2 = some r') :
    r' = r := by
  have hwf := reach_wf t hre
  obtain ⟨hwf', hothers, hexact⟩ := ht_insert_wf f t k v t' hwf hins
  cases r with
  | some v2 =>
    have hb : HasBinding t.items k2 v2 :=
      searchLoop_some_binding t.size k2 t.items g 0 v2 hs
    have hb' : HasBinding t'.items k2 v2 := (hothers k2 v2 hne).mpr hb
    cases r' with
    | some v2' =>
      have hb2 : HasBinding t'.items k2 v2' :=
        searchLoop_some_binding t'.size k2 t'.items g' 0 v2' hs'
      exact congrArg some
        (binding_unique_value t'.items hwf'.2.2.1 k2 v2' v2 hb2 hb')
    | none =>
      exact absurd hb' (searchLoop_none_no_binding t'.size k2 t'.items
        (fun v' hb'' => hwf'.2.2.2 k2 v' hb'') g' v2 hs')
  | none =>
    cases r' with
    | none => rfl
    | some v2' =>
      have hb2 : HasBinding t'.items k2 v2' :=
        searchLoop_some_binding t'.size k2 t'.items g' 0 v2' hs'
      have hb : HasBinding t.items k2 v2' := (hothers k2 v2' hne).mp hb2
      exact absurd hb (searchLoop_none_no_binding t.size k2 t.items
        (fun v' hb'' => hwf.2.2.2 k2 v' hb'') g v2' hs)

/-- Witness for c10_insert_frame: on a fresh table, a search for "b" misses
both before and after inserting "a". -/
theorem c10_insert_frame_witness :
    Reach ht_new ∧ ("b" : String) ≠ "a"
      ∧ ht_insert 2 ht_new "a" "x" = some ((ht_insert 2 ht_new "a" "x").getD ht_new)
      ∧ ht_search 1 ht_new "b" = some none
      ∧ ht_search 1 ((ht_insert 2 ht_new "a" "x").getD ht_new) "b" = some none
      ∧ (none : Option String) = none :=
  ⟨Reach.new, by decide, by decide, by decide, by decide,
    c10_insert_frame ht_new ((ht_insert 2 ht_new "a" "x").getD ht_new)
      "a" "x" "b" 2 1 1 none none Reach.new (by decide) (by decide)
      (by decide) (by decide)⟩

/-- C10 counterexample: on a fresh (reachable) table the search for "4"
misses immediately (bucket 52 is NULL).  After inserting the distinct key
"i", which occupies bucket 52, the search for "4" no longer returns at all:
it is still probing after 53 and after 1000 attempts, and
ht_search_four_never proves it diverges at every fuel.  The insert thus
changes the observable result of searching "4". -/
theorem c10_insert_frame_counterexample :
    ht_search 1 ht_new "4" = some none
      ∧ ht_insert 2 ht_new "i" "a" = some tableWithI
      ∧ ("4" : String) ≠ "i"
      ∧ ht_search 53 tableWithI "4" = none
      ∧ ht_search 1000 tableWithI "4" = none :=
  ⟨by decide, by decide, by decide, ht_search_four_never 53,
    ht_search_four_never 1000⟩
